import Mathlib

/-!
Verification of the distributed dask scheduler
(`src/dask/distributed/scheduler.py`) against its specification.

The scheduler is shallowly embedded: the mutable `Scheduler` object becomes an
explicit `SchedState` record, every handler and scheduling routine becomes a
function from states to results, and the side effects (frames sent to workers
and clients, log lines) are collected in an explicit effect trace.  Blocking
queue reads are modelled by supplying the stream of items the queue would
deliver as an explicit oracle argument; an exhausted oracle yields the
`blocked` outcome.  Python exceptions become the `raised` outcome carrying the
state as mutated up to the raise, since Python mutations before a raise
persist.

External collaborators of the scheduler that live elsewhere in the repository
(the DAG-state helper `start_state_from_dask` / `finish_task`,
`get_dependencies`, `flatten`, `core.get`) are modelled from the spec; each
such definition carries a doc comment starting with `Modelled from the spec:`.
-/

namespace DSched

/-- Data keys are client-chosen opaque identifiers. -/
abbrev Key := String

/-- Worker identities are opaque peer addresses. -/
abbrev Wkr := String

/-- Values are opaque to the coordinator. -/
abbrev Val := String

/-- Status carried by a `finished-task` frame: in the source it is either the
string `'OK'` or an `Exception` instance (`isinstance(payload['status'],
Exception)` is the test used by `schedule`). -/
inductive TStatus where
  | ok
  | exc (msg : String)
  deriving DecidableEq, Repr

/-- A `finished-task` frame: `{key, duration, dependencies, queue, status}`
plus the sender's address from the header. -/
structure FinishedFrame where
  address : Wkr
  key : Key
  duration : Nat
  dependencies : List Key
  queue : String
  status : TStatus
  deriving DecidableEq, Repr

/-- Items placed on rendezvous queues: `setitem_ack` puts the bare key,
`getitem_ack` puts a `(key, value)` pair, `worker_finished_task` puts the
whole payload. -/
inductive QItem where
  | qkey (k : Key)
  | qkv (k : Key) (v : Val)
  | qfin (f : FinishedFrame)
  deriving DecidableEq, Repr

/-- Errors raised by the embedded code.  `missingData` is the `IndexError`
raised by `random.choice` on an empty holder list in `_gather_send` — the
spec's `MissingData`; `noWorkers` is the like `IndexError` from
`random.choice(list(self.workers))` in `send_data`; `unreachableTasks` is the
`ValueError` raised by `schedule` — the spec's `UnreachableTasks`;
`taskFailure` is the worker-reported exception re-raised by `schedule`. -/
inductive Err where
  | keyError
  | assertionError
  | missingData
  | noWorkers
  | unreachableTasks
  | taskFailure (msg : String)
  | typeError
  deriving DecidableEq, Repr

/-- Nested key requests: `gather` accepts a key, a list of keys, or a nested
list of lists of keys. -/
inductive KeySpec where
  | leaf (k : Key)
  | node (ks : List KeySpec)

/-- Result values returned by `gather`/`schedule`, in the nested shape of the
request. -/
inductive RVal where
  | leaf (v : Val)
  | node (vs : List RVal)

/-- The payload of a `schedule-ack` frame: the materialized result on success,
the exception value on failure. -/
inductive AckResult where
  | value (v : RVal)
  | errVal (e : Err)

/-- Observable effects of the scheduler: frames sent to workers, frames sent
to clients, and lines appended to the log file. -/
inductive Eff where
  | setitemMsg (worker : Wkr) (key : Key) (value : Val) (queue : Option String)
  | getitemMsg (worker : Wkr) (key : Key) (queue : String)
  | delitemMsg (worker : Wkr) (key : Key)
  | computeMsg (worker : Wkr) (key : Key) (queue : String)
      (locations : List (Key × List Wkr))
  | clientMsg (address : String) (fn : String) (status : String)
      (res : AckResult)
  | logLine (entry : String)

/-- Tests whether an effect is a `setitem` frame to some worker. -/
def Eff.isSetitem : Eff → Bool
  | .setitemMsg _ _ _ _ => true
  | _ => false

/-- Tests whether an effect is a `compute` frame to some worker. -/
def Eff.isCompute : Eff → Bool
  | .computeMsg _ _ _ _ => true
  | _ => false

/-- Tests whether an effect is a `getitem` frame to some worker. -/
def Eff.isGetitem : Eff → Bool
  | .getitemMsg _ _ _ => true
  | _ => false

/-- Tests whether an effect is a log line. -/
def Eff.isLog : Eff → Bool
  | .logLine _ => true
  | _ => false

/-- The mutable state of the `Scheduler` object: registered workers (the key
set of the `workers` dict, in insertion order), the bidirectional placement
index `who_has` / `worker_has` (both `defaultdict(set)`, hence total
functions), the FIFO `available_workers` queue, the recorded durations
(`data[key]['duration']`), the reply-correlator registry `queues` (a plain
dict mapping queue names to queue contents), and the `active_tasks` set. -/
structure SchedState where
  workers : List Wkr
  who_has : Key → Finset Wkr
  worker_has : Wkr → Finset Key
  available_workers : List Wkr
  durations : Key → Option Nat
  queues : String → Option (List QItem)
  active_tasks : Finset Key

/-- Pointwise update of a string-indexed map. -/
def updf {β : Type} (f : String → β) (a : String) (b : β) : String → β :=
  fun x => if x = a then b else f x

/-- The scheduler state right after `__init__`: everything empty. -/
def initState : SchedState :=
  { workers := []
    who_has := fun _ => ∅
    worker_has := fun _ => ∅
    available_workers := []
    durations := fun _ => none
    queues := fun _ => none
    active_tasks := ∅ }

/-- Outcome of running a routine: normal return, a raised exception, or a
wait that can never be satisfied by the supplied oracle. -/
inductive Outcome (α : Type) where
  | ok (a : α)
  | raised (e : Err)
  | blocked

/-- Tests whether an outcome is a normal return. -/
def Outcome.isOk {α : Type} : Outcome α → Bool
  | .ok _ => true
  | _ => false

/-- Result of running a routine: the state after it (reflecting all mutations
up to a raise), the effect trace it emitted, and its outcome. -/
structure R (α : Type) where
  s : SchedState
  tr : List Eff
  out : Outcome α

/-- Sequencing of results: on a normal return continue with the continuation,
otherwise propagate the raise or the block. -/
def R.seq {α β : Type} (r : R α) (f : α → SchedState → R β) : R β :=
  match r.out with
  | .ok a =>
      let r2 := f a r.s
      ⟨r2.s, r.tr ++ r2.tr, r2.out⟩
  | .raised e => ⟨r.s, r.tr, .raised e⟩
  | .blocked => ⟨r.s, r.tr, .blocked⟩

/-- Prepend an effect trace to a result. -/
def R.pre {α : Type} (tr : List Eff) (r : R α) : R α :=
  ⟨r.s, tr ++ r.tr, r.out⟩

/-- A task value in a dask graph, as far as the coordinator inspects it: an
inline literal (such as `{'x': 1}`) or a computation whose dependency keys are
discoverable; the callable itself is opaque and never introspected. -/
inductive Task where
  | lit (v : Val)
  | node (deps : List Key)
  deriving DecidableEq, Repr

/-- A dask graph: a mapping from keys to task descriptions (dict, modelled as
an association list in insertion order, keys assumed distinct). -/
abbrev Graph := List (Key × Task)

/-- Modelled from the spec: `get_dependencies` from the external graph core
(`dask.core`), missing from `src/` — the dependency keys of a graph node,
discoverable by inspection (spec §4.G, glossary). -/
def get_dependencies (dsk : Graph) (k : Key) : List Key :=
  match dsk.find? (fun p => p.1 == k) with
  | some (_, Task.node ds) => ds
  | _ => []

/-- Insertion into a sorted list of strings, the building block of the fixed
enumeration order chosen for Python sets. -/
def insSorted (a : String) : List String → List String
  | [] => [a]
  | b :: l => if a ≤ b then a :: b :: l else b :: insSorted a l

theorem insSorted_comm (a b : String) : ∀ l : List String,
    insSorted a (insSorted b l) = insSorted b (insSorted a l) := by
  intro l
  induction l with
  | nil =>
      simp only [insSorted]
      by_cases hab : a ≤ b <;> by_cases hba : b ≤ a
      · have hev : a = b := le_antisymm hab hba
        subst hev
        simp
      · simp [insSorted, hab, hba]
      · simp [insSorted, hab, hba]
      · exact absurd (le_of_not_le hab) hba
  | cons c l ih =>
      by_cases hac : a ≤ c <;> by_cases hbc : b ≤ c
      · simp only [insSorted, if_pos hac, if_pos hbc]
        by_cases hab : a ≤ b <;> by_cases hba : b ≤ a
        · have hev : a = b := le_antisymm hab hba
          subst hev
          simp
        · simp [insSorted, hab, hba, hac, hbc]
        · simp [insSorted, hab, hba, hac, hbc]
        · exact absurd (le_of_not_le hab) hba
      · have hba : ¬b ≤ a := fun h => hbc (le_trans h hac)
        simp [insSorted, hac, hbc, hba]
      · have hab : ¬a ≤ b := fun h => hac (le_trans h hbc)
        simp [insSorted, hac, hbc, hab]
      · simp only [insSorted, if_neg hac, if_neg hbc]
        simp [insSorted, hac, hbc, ih]

instance : LeftCommutative insSorted :=
  ⟨insSorted_comm⟩

/-- Iteration order of a Python set of strings: an arbitrary but fixed
(here: sorted) enumeration of the elements. -/
def setList (t : Finset String) : List String :=
  t.val.foldr insSorted []

theorem mem_insSorted (x a : String) : ∀ l : List String,
    x ∈ insSorted a l ↔ x = a ∨ x ∈ l := by
  intro l
  induction l with
  | nil => simp [insSorted]
  | cons b l ih =>
      simp only [insSorted]
      split
      · simp
      · simp only [List.mem_cons, ih]
        tauto

theorem insSorted_nodup (a : String) : ∀ l : List String, a ∉ l → l.Nodup →
    (insSorted a l).Nodup := by
  intro l
  induction l with
  | nil =>
      intro _ _
      simp [insSorted]
  | cons b l ih =>
      intro ha hnd
      rw [List.nodup_cons] at hnd
      simp only [insSorted]
      split
      · exact List.nodup_cons.mpr ⟨ha, List.nodup_cons.mpr hnd⟩
      · refine List.nodup_cons.mpr ⟨?_, ih (fun h => ha (List.mem_cons_of_mem b h)) hnd.2⟩
        rw [mem_insSorted]
        rintro (hev | hmem)
        · exact ha (hev ▸ List.mem_cons_self b l)
        · exact hnd.1 hmem

theorem foldr_insSorted_mem (x : String) : ∀ m : Multiset String,
    x ∈ m.foldr insSorted [] ↔ x ∈ m := by
  refine fun m => Multiset.induction_on m (by simp) ?_
  intro a m ih
  rw [Multiset.foldr_cons, mem_insSorted]
  simp [ih]

theorem foldr_insSorted_nodup : ∀ m : Multiset String, m.Nodup →
    (m.foldr insSorted []).Nodup := by
  refine fun m => Multiset.induction_on m (by simp) ?_
  intro a m ih hnd
  rw [Multiset.nodup_cons] at hnd
  rw [Multiset.foldr_cons]
  refine insSorted_nodup a _ ?_ (ih hnd.2)
  rw [foldr_insSorted_mem]
  exact hnd.1

theorem setList_mem {t : Finset String} {x : String} : x ∈ setList t ↔ x ∈ t :=
  foldr_insSorted_mem x t.val

theorem setList_nodup (t : Finset String) : (setList t).Nodup :=
  foldr_insSorted_nodup t.val t.nodup

theorem setList_empty : setList (∅ : Finset String) = [] :=
  rfl

theorem setList_toFinset (t : Finset String) : (setList t).toFinset = t := by
  ext x
  rw [List.mem_toFinset, setList_mem]

/-- Record one placement fact, exactly as the handlers do:
`self.who_has[key].add(address); self.worker_has[address].add(key)`. -/
def record (s : SchedState) (key : Key) (address : Wkr) : SchedState :=
  { s with
    who_has := updf s.who_has key (insert address (s.who_has key))
    worker_has := updf s.worker_has address (insert key (s.worker_has address)) }

/-- Record a batch of placement facts for one worker, in order. -/
def recordAll (s : SchedState) (address : Wkr) (ds : List Key) : SchedState :=
  ds.foldl (fun st d => record st d address) s

/-- Handler for `register` frames (`Scheduler.worker_registration`): store the
worker's metadata under its address and put the address on the idle queue
(unconditionally — a re-registration puts it again). -/
def worker_registration (s : SchedState) (address : Wkr) : R Unit :=
  ⟨{ s with
      workers := if address ∈ s.workers then s.workers else s.workers ++ [address]
      available_workers := s.available_workers ++ [address] },
   [], .ok ()⟩

/-- Handler for `finished-task` frames (`Scheduler.worker_finished_task`):
log; `active_tasks.remove(key)` (a `KeyError` for an inactive key, re-raised
by `logerrors` after logging); record the duration; add the reporting worker
as holder of the produced key and of every declared dependency; put the
worker back on the idle queue; enqueue the payload on the rendezvous queue
named in the payload (a `KeyError`, after the preceding mutations, when the
name is unknown). -/
def worker_finished_task (s : SchedState) (f : FinishedFrame) : R Unit :=
  if f.key ∈ s.active_tasks then
    let s1 := { s with active_tasks := s.active_tasks.erase f.key }
    let s2 := { s1 with durations := updf s1.durations f.key (some f.duration) }
    let s3 := recordAll (record s2 f.key f.address) f.address f.dependencies
    let s4 := { s3 with available_workers := s3.available_workers ++ [f.address] }
    match s4.queues f.queue with
    | some items =>
        ⟨{ s4 with queues := updf s4.queues f.queue (some (items ++ [QItem.qfin f])) },
         [Eff.logLine "Finish task"], .ok ()⟩
    | none =>
        ⟨s4, [Eff.logLine "Finish task", Eff.logLine "Error!"], .raised .keyError⟩
  else
    ⟨s, [Eff.logLine "Finish task", Eff.logLine "Error!"], .raised .keyError⟩

/-- Handler for `setitem-ack` frames (`Scheduler.setitem_ack`): record the
placement fact, then — if the payload names a (truthy) queue — push the key
onto it.  There is no `logerrors` wrapper and no log call in this handler:
an unknown queue name raises an unlogged `KeyError`. -/
def setitem_ack (s : SchedState) (address : Wkr) (key : Key)
    (queue : Option String) : R Unit :=
  let s1 := record s key address
  match queue with
  | none => ⟨s1, [], .ok ()⟩
  | some q =>
      if q = "" then ⟨s1, [], .ok ()⟩
      else
        match s1.queues q with
        | some items =>
            ⟨{ s1 with queues := updf s1.queues q (some (items ++ [QItem.qkey key])) },
             [], .ok ()⟩
        | none => ⟨s1, [], .raised .keyError⟩

/-- Handler for `getitem-ack` frames (`Scheduler.getitem_ack`): log, assert
the header status is OK, push the `(key, value)` pair onto the named queue;
failures inside the `logerrors` block are logged and re-raised. -/
def getitem_ack (s : SchedState) (statusOK : Bool) (key : Key) (value : Val)
    (q : String) : R Unit :=
  if statusOK then
    match s.queues q with
    | some items =>
        ⟨{ s with queues := updf s.queues q (some (items ++ [QItem.qkv key value])) },
         [Eff.logLine "Getitem ack"], .ok ()⟩
    | none =>
        ⟨s, [Eff.logLine "Getitem ack", Eff.logLine "Error!"], .raised .keyError⟩
  else
    ⟨s, [Eff.logLine "Getitem ack", Eff.logLine "Error!"], .raised .assertionError⟩

/-- The per-worker body of `Scheduler.release_key`: send `delitem` to the
worker, then `who_has[key].remove(worker)` and `worker_has[worker].remove(key)`
(each a `KeyError` when the element is absent, after the send). -/
def release_loop (key : Key) : SchedState → List Wkr → R Unit
  | s, [] => ⟨s, [], .ok ()⟩
  | s, w :: ws =>
      if w ∈ s.who_has key then
        let s1 := { s with who_has := updf s.who_has key ((s.who_has key).erase w) }
        if key ∈ s1.worker_has w then
          let s2 := { s1 with
            worker_has := updf s1.worker_has w ((s1.worker_has w).erase key) }
          R.pre [Eff.delitemMsg w key] (release_loop key s2 ws)
        else ⟨s1, [Eff.delitemMsg w key], .raised .keyError⟩
      else ⟨s, [Eff.delitemMsg w key], .raised .keyError⟩

/-- `Scheduler.release_key`: snapshot the holder list of the key, log, and
drop the `(key, worker)` pairs from both index maps while sending
fire-and-forget `delitem` requests. -/
def release_key (s : SchedState) (key : Key) : R Unit :=
  R.pre [Eff.logLine "Release data"] (release_loop key s (setList (s.who_has key)))

/-- `Scheduler.trigger_task`: compute the dependency set of the key, take the
longest-idle worker (blocking when none is available), snapshot each
dependency's holders into `locations`, send the `compute` frame, and add the
key to `active_tasks`. -/
def trigger_task (s : SchedState) (dsk : Graph) (key : Key) (queue : String) :
    R Unit :=
  let deps := get_dependencies dsk key
  match s.available_workers with
  | [] => ⟨s, [], .blocked⟩
  | w :: rest =>
      let locations := deps.map (fun d => (d, setList (s.who_has d)))
      ⟨{ s with
          available_workers := rest
          active_tasks := insert key s.active_tasks },
       [Eff.computeMsg w key queue locations], .ok ()⟩

/-- The first `n` elements of `itertools.cycle ws`; empty when `ws` is empty
(a cycle over an empty list yields nothing). -/
def cycleList (ws : List Wkr) (n : Nat) : List Wkr :=
  match ws with
  | [] => []
  | _ => (List.range n).map (fun i => ws.getD (i % ws.length) "")

/-- The `setitem-ack` replies a blocking `scatter` waits for: while `scatter`
blocks on its rendezvous queue, the ack handler runs once per sent pair;
their state effects are linearized here, before `scatter`'s return. -/
def scatterAcks (qkey : String) (s : SchedState)
    (targets : List ((Key × Val) × Wkr)) : SchedState :=
  targets.foldl (fun st pw => (setitem_ack st pw.2 pw.1.1 (some qkey)).s) s

/-- `Scheduler.scatter`: round-robin the pairs over the currently known
workers (zipping with a cyclic iteration, so no worker means no sends),
register a fresh rendezvous queue, send the `setitem` frames (naming the
queue only when blocking), and — only when `block` — wait for one ack per
pair and delete the queue.  With `block = False` the queue stays registered. -/
def scatter (s : SchedState) (qkey : String) (pairs : List (Key × Val))
    (block : Bool) : R Unit :=
  let targets := pairs.zip (cycleList s.workers pairs.length)
  let s1 := { s with queues := updf s.queues qkey (some []) }
  let msgs := targets.map (fun pw =>
    Eff.setitemMsg pw.2 pw.1.1 pw.1.2 (if block then some qkey else none))
  if block then
    let s2 := scatterAcks qkey s1 targets
    ⟨{ s2 with queues := updf s2.queues qkey none },
     Eff.logLine "Scatter" :: msgs, .ok ()⟩
  else
    ⟨s1, Eff.logLine "Scatter" :: msgs, .ok ()⟩

/-- Validity of a stand-in for `random.choice`: it fails exactly on the empty
list (an `IndexError`) and otherwise picks some element of the list. -/
def PickValid (pick : List String → Option String) : Prop :=
  ∀ l : List String, (l = [] → pick l = none) ∧ (l ≠ [] → ∃ x, pick l = some x ∧ x ∈ l)

/-- One concrete choice function: take the first element. -/
def headPick (l : List String) : Option String :=
  l.head?

theorem headPick_valid : PickValid headPick := by
  intro l
  constructor
  · intro h; simp [headPick, h]
  · intro h
    cases l with
    | nil => exact absurd rfl h
    | cons a l => exact ⟨a, rfl, List.mem_cons_self a l⟩

/-- `Scheduler.send_data`: register a reply rendezvous when `reply` is set,
pick the target worker (at random among the known workers when no address is
given — an `IndexError` when none is registered), send the `setitem` frame,
and when replying wait for the single ack (its handler linearized here) and
delete the queue. -/
def send_data (pick : List String → Option String) (s : SchedState)
    (qkey : String) (key : Key) (value : Val) (addr : Option Wkr)
    (reply : Bool) : R Unit :=
  let s1 := if reply then { s with queues := updf s.queues qkey (some []) } else s
  let addrR : Option Wkr :=
    match addr with
    | some a => some a
    | none => pick s1.workers
  match addrR with
  | none => ⟨s1, [], .raised .noWorkers⟩
  | some a =>
      let msg := Eff.setitemMsg a key value (if reply then some qkey else none)
      if reply then
        let s2 := (setitem_ack s1 a key (some qkey)).s
        ⟨{ s2 with queues := updf s2.queues qkey none }, [msg], .ok ()⟩
      else ⟨s1, [msg], .ok ()⟩

mutual

/-- Modelled from the spec: `flatten` from the external graph core, missing
from `src/` — flatten a nested key request into its list of leaf keys. -/
def flattenK : KeySpec → List Key
  | KeySpec.leaf k => [k]
  | KeySpec.node ks => flattenL ks

/-- List part of `flattenK`. -/
def flattenL : List KeySpec → List Key
  | [] => []
  | k :: ks => flattenK k ++ flattenL ks

end

mutual

/-- Modelled from the spec: `core.get` on an in-memory cache, missing from
`src/` — reshape the collected values to the caller's nested request shape
(`none` when a requested key is absent from the cache). -/
def core_getK (cache : Key → Option Val) : KeySpec → Option RVal
  | KeySpec.leaf k => (cache k).map RVal.leaf
  | KeySpec.node ks => (core_getL cache ks).map RVal.node

/-- List part of `core_getK`. -/
def core_getL (cache : Key → Option Val) : List KeySpec → Option (List RVal)
  | [] => some []
  | k :: ks =>
      match core_getK cache k, core_getL cache ks with
      | some v, some vs => some (v :: vs)
      | _, _ => none

end

mutual

/-- `Scheduler._gather_send`: walk the nested key request; for each leaf key
snapshot its holder set and send `getitem` to a randomly chosen holder.
`random.choice` on an empty holder list raises an `IndexError` — the spec's
`MissingData`. -/
def gatherSendK (pick : List String → Option String) (qkey : String) :
    KeySpec → SchedState → R Unit
  | KeySpec.leaf key, s =>
      let seq := setList (s.who_has key)
      match pick seq with
      | none => ⟨s, [], .raised .missingData⟩
      | some w => ⟨s, [Eff.getitemMsg w key qkey], .ok ()⟩
  | KeySpec.node ks, s => gatherSendL pick qkey ks s

/-- List part of `gatherSendK`. -/
def gatherSendL (pick : List String → Option String) (qkey : String) :
    List KeySpec → SchedState → R Unit
  | [], s => ⟨s, [], .ok ()⟩
  | k :: ks, s =>
      R.seq (gatherSendK pick qkey k s) (fun _ s' => gatherSendL pick qkey ks s')

end

/-- Dict built from a list of pairs: later entries overwrite earlier ones. -/
def dictOf (l : List (Key × Val)) : Key → Option Val :=
  fun k => l.foldl (fun acc p => if p.1 = k then some p.2 else acc) none

/-- `Scheduler.gather`: register a fresh rendezvous queue, send the `getitem`
requests, wait for one `(key, value)` reply per flattened key (the oracle
`replies` lists what the `getitem-ack` handlers would deliver; too few means
waiting forever), delete the queue, and reshape the collected cache to the
request shape. -/
def gather (pick : List String → Option String) (qkey : String)
    (replies : List (Key × Val)) (s : SchedState) (keys : KeySpec) : R RVal :=
  let s1 := { s with queues := updf s.queues qkey (some []) }
  R.seq (gatherSendK pick qkey keys s1) (fun _ s2 =>
    let n := (flattenK keys).length
    if n ≤ replies.length then
      let cache := dictOf (replies.take n)
      let s3 := { s2 with queues := updf s2.queues qkey none }
      match core_getK cache keys with
      | some v => ⟨s3, [], .ok v⟩
      | none => ⟨s3, [], .raised .keyError⟩
    else ⟨s2, [], .blocked⟩)

/-- The mutable DAG state produced by the external helper: `waiting` maps each
not-yet-fireable key to its unmet dependencies, `ready` is the fireable
frontier (a list whose tail end is popped), `readySet` its index, `running`
the dispatched keys, `released` the dropped intermediates, and `waiting_data`
maps each key to the dependents still needing its value. -/
structure DagState where
  waiting : List (Key × List Key)
  ready : List Key
  readySet : List Key
  running : Finset Key
  released : Finset Key
  waiting_data : List (Key × List Key)

/-- Lookup in an association list (a Python dict). -/
def lookupA (l : List (Key × List Key)) (k : Key) : Option (List Key) :=
  (l.find? (fun p => p.1 == k)).map (fun p => p.2)

/-- Deletion from an association list (`del d[k]`). -/
def removeA (l : List (Key × List Key)) (k : Key) : List (Key × List Key) :=
  l.filter (fun p => p.1 != k)

/-- Update/insert in an association list (`d[k] = v`). -/
def setA (l : List (Key × List Key)) (k : Key) (v : List Key) :
    List (Key × List Key) :=
  if (l.find? (fun p => p.1 == k)).isSome then
    l.map (fun p => if p.1 == k then (k, v) else p)
  else l ++ [(k, v)]

/-- Whether a graph key is an inline literal (its value goes to the cache). -/
def isLitKey (dsk : Graph) (k : Key) : Bool :=
  match dsk.find? (fun p => p.1 == k) with
  | some (_, Task.lit _) => true
  | _ => false

/-- Modelled from the spec: the external DAG-state helper's `initial_state`
(`start_state_from_dask` in `dask.async`, missing from `src/`) — extract the
inline-value keys into a cache, partition the computed keys into `waiting`
(some dependency not yet available) and `ready` (all dependencies are
literals), index `ready` in `ready-set`, start `running`/`released` empty,
and populate `waiting_data` with each key's dependents (spec §4.H). -/
def dag_state_from_dask (dsk : Graph) : List (Key × Val) × DagState :=
  let cache := dsk.filterMap (fun kt =>
    match kt.2 with
    | Task.lit v => some (kt.1, v)
    | _ => none)
  let tasks := dsk.filterMap (fun kt =>
    match kt.2 with
    | Task.node ds => some (kt.1, ds)
    | _ => none)
  let unmet := fun (ds : List Key) => ds.filter (fun d => !(isLitKey dsk d))
  let waiting := tasks.filterMap (fun kd =>
    if (unmet kd.2).isEmpty then none else some (kd.1, unmet kd.2))
  let ready := tasks.filterMap (fun kd =>
    if (unmet kd.2).isEmpty then some kd.1 else none)
  let waiting_data := dsk.map (fun kt =>
    (kt.1, tasks.filterMap (fun kd => if kt.1 ∈ kd.2 then some kd.1 else none)))
  (cache,
   { waiting := waiting
     ready := ready
     readySet := ready
     running := ∅
     released := ∅
     waiting_data := waiting_data })

/-- `Scheduler._release_data`: drop a key's (empty) `waiting_data` entry —
asserting it is indeed empty — mark the key released, and (when `delete`)
release it from all workers via `release_key`. -/
def _release_data (s : SchedState) (dag : DagState) (key : Key) (del : Bool) :
    R DagState :=
  match lookupA dag.waiting_data key with
  | some l =>
      if l.isEmpty then
        let dag1 := { dag with
          waiting_data := removeA dag.waiting_data key
          released := insert key dag.released }
        if del then
          R.seq (release_key s key) (fun _ s' => ⟨s', [], .ok dag1⟩)
        else ⟨s, [], .ok dag1⟩
      else ⟨s, [], .raised .assertionError⟩
  | none =>
      let dag1 := { dag with released := insert key dag.released }
      if del then
        R.seq (release_key s key) (fun _ s' => ⟨s', [], .ok dag1⟩)
      else ⟨s, [], .ok dag1⟩

/-- Modelled from the spec: one dependent-promotion step of the external
helper's `finish_task` — remove the finished key from the dependent's unmet
set and move the dependent to the ready frontier when nothing is left
(spec §4.G step 6c). -/
def promoteDep (key : Key) (dag : DagState) (d : Key) : DagState :=
  match lookupA dag.waiting d with
  | some unmet =>
      let unmet' := unmet.erase key
      if unmet'.isEmpty then
        { dag with
          waiting := removeA dag.waiting d
          ready := dag.ready ++ [d]
          readySet := dag.readySet ++ [d] }
      else { dag with waiting := setA dag.waiting d unmet' }
  | none => dag

/-- Modelled from the spec: the release sweep of the external helper's
`finish_task` — drop the finished key from each of its dependencies'
dependent sets and release every dependency that now has no remaining
dependents and is not a requested result (spec §4.G step 6c, §4.H). -/
def releaseDeps (dsk : Graph) (results : List Key) (key : Key) :
    SchedState → DagState → List Key → R DagState
  | s, dag, [] => ⟨s, [], .ok dag⟩
  | s, dag, dep :: rest =>
      let wd := ((lookupA dag.waiting_data dep).getD []).erase key
      let dag1 := { dag with waiting_data := setA dag.waiting_data dep wd }
      if wd.isEmpty && !(results.contains dep) then
        R.seq (_release_data s dag1 dep true) (fun dag2 s' =>
          releaseDeps dsk results key s' dag2 rest)
      else releaseDeps dsk results key s dag1 rest

/-- Modelled from the spec: the external helper's `finish_task` — move the
finished key out of `running`, promote dependents whose unmet sets became
empty into `ready`, and invoke the release sweep over the key's dependencies
(spec §4.G step 6c, §4.H). -/
def finish_task (dsk : Graph) (key : Key) (results : List Key)
    (s : SchedState) (dag : DagState) : R DagState :=
  let dag1 := { dag with running := dag.running.erase key }
  let deps := (lookupA dag1.waiting_data key).getD []
  let dag2 := deps.foldl (promoteDep key) dag1
  releaseDeps dsk results key s dag2 (get_dependencies dsk key)

/-- The seed/refill loop of `Scheduler.schedule`, with an explicit recursion
bound: while the ready frontier is non-empty and an idle worker is available,
pop the last ready key, move it to `running`, and fire it via `trigger_task`.
Each iteration pops one ready key, so the number of iterations is bounded by
the length of the ready list, which `fireLoop` passes as the bound. -/
def fireLoopGo (dsk : Graph) (qkey : String) : Nat → SchedState → DagState → R DagState
  | 0, s, dag => ⟨s, [], .ok dag⟩
  | n + 1, s, dag =>
      match dag.ready.getLast? with
      | none => ⟨s, [], .ok dag⟩
      | some key =>
          if s.available_workers.isEmpty then ⟨s, [], .ok dag⟩
          else
            let dag1 : DagState := { dag with
              ready := dag.ready.dropLast
              readySet := dag.readySet.erase key
              running := insert key dag.running }
            R.seq (trigger_task s dsk key qkey) (fun _ s' => fireLoopGo dsk qkey n s' dag1)

/-- The seed/refill loop at its actual bound. -/
def fireLoop (dsk : Graph) (qkey : String) (s : SchedState) (dag : DagState) :
    R DagState :=
  fireLoopGo dsk qkey dag.ready.length s dag

/-- Pop the head of a registered rendezvous queue, if any item is present. -/
def popQ (s : SchedState) (qkey : String) : Option (QItem × SchedState) :=
  match s.queues qkey with
  | some (p :: ps) => some (p, { s with queues := updf s.queues qkey (some ps) })
  | _ => none

/-- The main loop of `Scheduler.schedule`: while any of `waiting`, `ready`,
`running` is non-empty, block on the event rendezvous for one completion
payload — here, the next worker event is handled by `worker_finished_task`
(which enqueues the payload) and then the head of the run's queue is popped —
re-raise a worker-reported exception, otherwise apply the helper's
`finish_task` and refill the workers with newly-ready tasks. -/
def mainLoop (dsk : Graph) (qkey : String) (results : List Key) :
    List FinishedFrame → SchedState → DagState → R Unit
  | events, s, dag =>
    if dag.waiting = [] ∧ dag.ready = [] ∧ dag.running = ∅ then ⟨s, [], .ok ()⟩
    else
      match events with
      | [] => ⟨s, [], .blocked⟩
      | e :: rest =>
          let hr := worker_finished_task s e
          match hr.out with
          | .raised _ => R.pre hr.tr (mainLoop dsk qkey results rest hr.s dag)
          | _ =>
              match popQ hr.s qkey with
              | none => R.pre hr.tr (mainLoop dsk qkey results rest hr.s dag)
              | some (p, s2) =>
                  match p with
                  | QItem.qfin f =>
                      match f.status with
                      | TStatus.exc m => ⟨s2, hr.tr, .raised (.taskFailure m)⟩
                      | TStatus.ok =>
                          R.pre hr.tr (R.seq (finish_task dsk f.key results s2 dag)
                            (fun dag2 s3 =>
                              R.seq (fireLoop dsk qkey s3 dag2) (fun dag3 s4 =>
                                mainLoop dsk qkey results rest s4 dag3)))
                  | _ => ⟨s2, hr.tr, .raised .typeError⟩

/-- `Scheduler.schedule`: build the DAG state (extracting the literal cache),
scatter the cache to the workers (blocking), fail with the spec's
`UnreachableTasks` when `waiting` is non-empty but `ready` empty — note this
check runs only after the scatter — open the event rendezvous, seed the idle
workers with ready tasks, run the main loop over the worker events, and
finally gather the requested keys.  The event rendezvous `qkey` is never
deleted. -/
def schedule (pick : List String → Option String) (scatQ qkey gathQ : String)
    (events : List FinishedFrame) (replies : List (Key × Val))
    (dsk : Graph) (result : KeySpec) (s : SchedState) : R RVal :=
  let results := flattenK result
  let cd := dag_state_from_dask dsk
  R.seq (scatter s scatQ cd.1 true) (fun _ s1 =>
    if cd.2.waiting ≠ [] ∧ cd.2.ready = [] then
      ⟨s1, [], .raised .unreachableTasks⟩
    else
      let s2 := { s1 with queues := updf s1.queues qkey (some []) }
      R.seq (fireLoop dsk qkey s2 cd.2) (fun dag1 s3 =>
        R.seq (mainLoop dsk qkey results events s3 dag1) (fun _ s4 =>
          gather pick gathQ replies s4 result)))

/-- `Scheduler.schedule_from_client`: run `schedule` for the client's graph;
answer with a `schedule-ack` frame whose status is `"OK"` with the result on
success, or `"Error"` with the exception value as the result payload. -/
def schedule_from_client (pick : List String → Option String)
    (scatQ qkey gathQ : String) (events : List FinishedFrame)
    (replies : List (Key × Val)) (address : String) (dsk : Graph)
    (keys : KeySpec) (s : SchedState) : R Unit :=
  let r := schedule pick scatQ qkey gathQ events replies dsk keys s
  match r.out with
  | .ok v =>
      ⟨r.s, r.tr ++ [Eff.clientMsg address "schedule-ack" "OK" (AckResult.value v)],
       .ok ()⟩
  | .raised e =>
      ⟨r.s, r.tr ++ [Eff.clientMsg address "schedule-ack" "Error" (AckResult.errVal e)],
       .ok ()⟩
  | .blocked => ⟨r.s, r.tr, .blocked⟩

/-- The bidirectional placement invariant: a worker is recorded as a holder of
a key iff the key is recorded as held by the worker (spec §3, §8). -/
def Inv (s : SchedState) : Prop :=
  ∀ (k : Key) (w : Wkr), w ∈ s.who_has k ↔ k ∈ s.worker_has w

theorem inv_initState : Inv initState := by
  intro k w
  simp [initState]

/-- Invariance transfer: a state whose two index maps agree with a consistent
state is itself consistent. -/
theorem inv_of_eq {s s' : SchedState} (h : Inv s)
    (hw : s'.who_has = s.who_has) (hh : s'.worker_has = s.worker_has) :
    Inv s' := by
  intro k w
  rw [hw, hh]
  exact h k w

theorem seq_of_ok {α β : Type} {r : R α} {a : α} (f : α → SchedState → R β)
    (h : r.out = Outcome.ok a) :
    R.seq r f = ⟨(f a r.s).s, r.tr ++ (f a r.s).tr, (f a r.s).out⟩ := by
  simp [R.seq, h]

theorem seq_of_raised {α β : Type} {r : R α} {e : Err} (f : α → SchedState → R β)
    (h : r.out = Outcome.raised e) :
    R.seq r f = ⟨r.s, r.tr, Outcome.raised e⟩ := by
  simp [R.seq, h]

@[simp] theorem pre_s {α : Type} (tr : List Eff) (r : R α) : (R.pre tr r).s = r.s := rfl

@[simp] theorem pre_tr {α : Type} (tr : List Eff) (r : R α) :
    (R.pre tr r).tr = tr ++ r.tr := rfl

@[simp] theorem pre_out {α : Type} (tr : List Eff) (r : R α) : (R.pre tr r).out = r.out := rfl

@[simp] theorem record_queues (s : SchedState) (k : Key) (w : Wkr) :
    (record s k w).queues = s.queues := rfl

@[simp] theorem record_active (s : SchedState) (k : Key) (w : Wkr) :
    (record s k w).active_tasks = s.active_tasks := rfl

@[simp] theorem record_avail (s : SchedState) (k : Key) (w : Wkr) :
    (record s k w).available_workers = s.available_workers := rfl

@[simp] theorem record_durations (s : SchedState) (k : Key) (w : Wkr) :
    (record s k w).durations = s.durations := rfl

@[simp] theorem record_workers (s : SchedState) (k : Key) (w : Wkr) :
    (record s k w).workers = s.workers := rfl

theorem recordAll_cons (s : SchedState) (w : Wkr) (d : Key) (ds : List Key) :
    recordAll s w (d :: ds) = recordAll (record s d w) w ds := rfl

@[simp] theorem recordAll_queues (w : Wkr) (ds : List Key) : ∀ s : SchedState,
    (recordAll s w ds).queues = s.queues := by
  induction ds with
  | nil => intro s; rfl
  | cons d ds ih => intro s; exact ih (record s d w)

@[simp] theorem recordAll_active (w : Wkr) (ds : List Key) : ∀ s : SchedState,
    (recordAll s w ds).active_tasks = s.active_tasks := by
  induction ds with
  | nil => intro s; rfl
  | cons d ds ih => intro s; exact ih (record s d w)

@[simp] theorem recordAll_avail (w : Wkr) (ds : List Key) : ∀ s : SchedState,
    (recordAll s w ds).available_workers = s.available_workers := by
  induction ds with
  | nil => intro s; rfl
  | cons d ds ih => intro s; exact ih (record s d w)

@[simp] theorem recordAll_durations (w : Wkr) (ds : List Key) : ∀ s : SchedState,
    (recordAll s w ds).durations = s.durations := by
  induction ds with
  | nil => intro s; rfl
  | cons d ds ih => intro s; exact ih (record s d w)

@[simp] theorem recordAll_workers (w : Wkr) (ds : List Key) : ∀ s : SchedState,
    (recordAll s w ds).workers = s.workers := by
  induction ds with
  | nil => intro s; rfl
  | cons d ds ih => intro s; exact ih (record s d w)

theorem mem_record_who (s : SchedState) (k : Key) (w : Wkr) :
    w ∈ (record s k w).who_has k := by
  simp [record, updf]

theorem mem_record_worker (s : SchedState) (k : Key) (w : Wkr) :
    k ∈ (record s k w).worker_has w := by
  simp [record, updf]

theorem record_who_mono (s : SchedState) (k : Key) (w : Wkr) (a : Key) (x : Wkr)
    (h : x ∈ s.who_has a) : x ∈ (record s k w).who_has a := by
  simp only [record, updf]
  split
  · next heq => exact heq ▸ Finset.mem_insert_of_mem (heq ▸ h)
  · exact h

theorem record_worker_mono (s : SchedState) (k : Key) (w : Wkr) (x : Wkr) (a : Key)
    (h : a ∈ s.worker_has x) : a ∈ (record s k w).worker_has x := by
  simp only [record, updf]
  split
  · next heq => exact heq ▸ Finset.mem_insert_of_mem (heq ▸ h)
  · exact h

theorem recordAll_who_mono (w : Wkr) (ds : List Key) : ∀ (s : SchedState) (a : Key)
    (x : Wkr), x ∈ s.who_has a → x ∈ (recordAll s w ds).who_has a := by
  induction ds with
  | nil => intro s a x h; exact h
  | cons d ds ih =>
      intro s a x h
      exact ih (record s d w) a x (record_who_mono s d w a x h)

theorem recordAll_worker_mono (w : Wkr) (ds : List Key) : ∀ (s : SchedState) (x : Wkr)
    (a : Key), a ∈ s.worker_has x → a ∈ (recordAll s w ds).worker_has x := by
  induction ds with
  | nil => intro s x a h; exact h
  | cons d ds ih =>
      intro s x a h
      exact ih (record s d w) x a (record_worker_mono s d w x a h)

theorem recordAll_mem (w : Wkr) (ds : List Key) : ∀ (s : SchedState) (d : Key),
    d ∈ ds → w ∈ (recordAll s w ds).who_has d ∧ d ∈ (recordAll s w ds).worker_has w := by
  induction ds with
  | nil => intro s d h; exact absurd h (List.not_mem_nil d)
  | cons d' ds ih =>
      intro s d h
      rcases List.mem_cons.mp h with h | h
      · subst h
        rw [recordAll_cons]
        exact ⟨recordAll_who_mono w ds (record s d w) d w (mem_record_who s d w),
               recordAll_worker_mono w ds (record s d w) w d (mem_record_worker s d w)⟩
      · exact ih (record s d' w) d h

theorem record_inv {s : SchedState} (h : Inv s) (k : Key) (w : Wkr) :
    Inv (record s k w) := by
  intro a x
  simp only [record, updf]
  by_cases hak : a = k
  · subst hak
    by_cases hxw : x = w
    · subst hxw; simp
    · simp [hxw, Finset.mem_insert, h a x]
  · by_cases hxw : x = w
    · subst hxw
      simp [hak, Finset.mem_insert, h a x]
    · simp [hak, hxw, h a x]

theorem recordAll_inv (w : Wkr) (ds : List Key) : ∀ s : SchedState, Inv s →
    Inv (recordAll s w ds) := by
  induction ds with
  | nil => intro s h; exact h
  | cons d ds ih => intro s h; exact ih (record s d w) (record_inv h d w)

theorem wft_run (s : SchedState) (f : FinishedFrame) (items : List QItem)
    (hact : f.key ∈ s.active_tasks) (hq : s.queues f.queue = some items) :
    (worker_finished_task s f).out = Outcome.ok () ∧
    (worker_finished_task s f).tr = [Eff.logLine "Finish task"] ∧
    (worker_finished_task s f).s.active_tasks = s.active_tasks.erase f.key ∧
    (worker_finished_task s f).s.durations f.key = some f.duration ∧
    (worker_finished_task s f).s.available_workers = s.available_workers ++ [f.address] ∧
    (worker_finished_task s f).s.queues =
      updf s.queues f.queue (some (items ++ [QItem.qfin f])) ∧
    f.address ∈ (worker_finished_task s f).s.who_has f.key ∧
    f.key ∈ (worker_finished_task s f).s.worker_has f.address ∧
    (∀ d ∈ f.dependencies, f.address ∈ (worker_finished_task s f).s.who_has d ∧
      d ∈ (worker_finished_task s f).s.worker_has f.address) := by
  simp only [worker_finished_task, if_pos hact, recordAll_queues, record_queues,
    recordAll_avail, record_avail, recordAll_active, record_active,
    recordAll_durations, record_durations, hq]
  refine ⟨by trivial, by trivial, by trivial, ?_, by trivial, by trivial, ?_, ?_, ?_⟩
  · simp [updf]
  · exact recordAll_who_mono f.address f.dependencies _ f.key f.address
      (mem_record_who _ f.key f.address)
  · exact recordAll_worker_mono f.address f.dependencies _ f.address f.key
      (mem_record_worker _ f.key f.address)
  · intro d hd
    exact recordAll_mem f.address f.dependencies _ d hd

/-- A concrete state with one registered idle worker `w1`. -/
def st1 : SchedState := (worker_registration initState "w1").s

/-- A concrete one-task graph. -/
def dskY : Graph := [("y", Task.node [])]

/-- A concrete state in which task `y` has been fired at worker `w1` and the
event rendezvous `eq1` is registered. -/
def stAct : SchedState :=
  (trigger_task { st1 with queues := updf st1.queues "eq1" (some []) } dskY "y" "eq1").s

/-- A concrete successful `finished-task` frame for `y` from `w1`. -/
def frameY : FinishedFrame :=
  { address := "w1", key := "y", duration := 5, dependencies := ["d1"],
    queue := "eq1", status := TStatus.ok }

/-- C2: for every `finished-task` frame whose key is active,
`worker_finished_task` removes the key from `active_tasks`, records the
reported duration in the task metadata, adds the reporting worker to the
holder sets of the produced key and of every declared dependency (and those
keys to the worker's held set), returns the worker to the idle pool, and
enqueues the payload on the rendezvous queue named in the payload (which the
frame presupposes to be registered). -/
theorem worker_finished_task_ingests (s : SchedState) (f : FinishedFrame)
    (items : List QItem) (hact : f.key ∈ s.active_tasks)
    (hq : s.queues f.queue = some items) :
    (worker_finished_task s f).out = Outcome.ok () ∧
    (worker_finished_task s f).s.active_tasks = s.active_tasks.erase f.key ∧
    (worker_finished_task s f).s.durations f.key = some f.duration ∧
    (f.address ∈ (worker_finished_task s f).s.who_has f.key ∧
     f.key ∈ (worker_finished_task s f).s.worker_has f.address) ∧
    (∀ d ∈ f.dependencies, f.address ∈ (worker_finished_task s f).s.who_has d ∧
      d ∈ (worker_finished_task s f).s.worker_has f.address) ∧
    (worker_finished_task s f).s.available_workers = s.available_workers ++ [f.address] ∧
    (worker_finished_task s f).s.queues f.queue = some (items ++ [QItem.qfin f]) := by
  obtain ⟨h1, _, h3, h4, h5, h6, h7, h8, h9⟩ := wft_run s f items hact hq
  refine ⟨h1, h3, h4, ⟨h7, h8⟩, h9, h5, ?_⟩
  rw [h6]
  simp [updf]

/-- Witness for C2 at a concrete input. -/
theorem worker_finished_task_ingests_witness :
    "y" ∈ stAct.active_tasks ∧ stAct.queues "eq1" = some [] ∧
    (worker_finished_task stAct frameY).out = Outcome.ok () ∧
    (worker_finished_task stAct frameY).s.available_workers = ["w1"] :=
  ⟨by decide, by decide,
   (worker_finished_task_ingests stAct frameY [] (by decide) (by decide)).1,
   by
     have h := (worker_finished_task_ingests stAct frameY [] (by decide) (by decide)).2.2.2.2.2.1
     simpa [stAct, st1, worker_registration, initState, trigger_task] using h⟩

/-- C10: for every non-empty collection of pairs, `scatter` with no
registered workers returns without error and sends no `setitem` frame: the
cyclic iteration over the empty worker list yields nothing, zero pairs are
sent, with `block` it waits for zero acks (registering and deleting its
queue), and the data is silently dropped — no placement is recorded. -/
theorem scatter_no_workers (s : SchedState) (qk : String) (pairs : List (Key × Val))
    (block : Bool) (hw : s.workers = []) (hp : pairs ≠ []) :
    (scatter s qk pairs block).out = Outcome.ok () ∧
    (scatter s qk pairs block).tr.any Eff.isSetitem = false ∧
    (scatter s qk pairs block).s.who_has = s.who_has ∧
    (scatter s qk pairs block).s.worker_has = s.worker_has ∧
    (block = true → (scatter s qk pairs block).s.queues qk = none) ∧
    (∀ n, n ≠ qk → (scatter s qk pairs block).s.queues n = s.queues n) := by
  have ht : pairs.zip (cycleList s.workers pairs.length) = [] := by
    rw [hw]
    simp [cycleList]
  cases block with
  | true =>
      refine ⟨by simp [scatter, ht, scatterAcks], by simp [scatter, ht, Eff.isSetitem],
        by simp [scatter, ht, scatterAcks], by simp [scatter, ht, scatterAcks],
        fun _ => by simp [scatter, ht, scatterAcks, updf], fun n hn => ?_⟩
      simp [scatter, ht, scatterAcks, updf, hn]
  | false =>
      refine ⟨by simp [scatter, ht], by simp [scatter, ht, Eff.isSetitem],
        by simp [scatter, ht], by simp [scatter, ht],
        by intro h; exact absurd h (by simp), fun n hn => ?_⟩
      simp [scatter, ht, updf, hn]

/-- Witness for C10 at a concrete input. -/
theorem scatter_no_workers_witness :
    initState.workers = [] ∧ ([(("x" : Key), ("1" : Val))] : List (Key × Val)) ≠ [] ∧
    (scatter initState "q0" [("x", "1")] true).out = Outcome.ok () :=
  ⟨rfl, by decide, (scatter_no_workers initState "q0" [("x", "1")] true rfl (by decide)).1⟩

/-- Counterexample to C8 as stated: a `setitem-ack` frame naming an
unregistered queue makes `setitem_ack` raise a `KeyError` without writing any
log line (the handler has no `logerrors` wrapper and no log call), so the
dispatcher does not log the event. -/
theorem setitem_ack_unlogged_counterexample :
    (setitem_ack initState "w1" "x" (some "q9")).out = Outcome.raised Err.keyError ∧
    (setitem_ack initState "w1" "x" (some "q9")).tr = [] :=
  ⟨rfl, rfl⟩

/-- C8 amended: an ack for an unknown rendezvous queue never reaches any
queue and never crosses the handler (the pool thread swallows the raise, so
the scheduler survives), and `getitem-ack` and `finished-task` log the
failure before re-raising; but `setitem-ack` drops the frame with an
unlogged `KeyError` — no log line is written. -/
theorem ack_unknown_queue_behavior :
    (∀ (s : SchedState) (w : Wkr) (k : Key) (q : String), s.queues q = none → q ≠ "" →
      (setitem_ack s w k (some q)).out = Outcome.raised Err.keyError ∧
      (setitem_ack s w k (some q)).tr = [] ∧
      ∀ n, (setitem_ack s w k (some q)).s.queues n = s.queues n) ∧
    (∀ (s : SchedState) (k : Key) (v : Val) (q : String), s.queues q = none →
      (getitem_ack s true k v q).out = Outcome.raised Err.keyError ∧
      (getitem_ack s true k v q).tr = [Eff.logLine "Getitem ack", Eff.logLine "Error!"] ∧
      ∀ n, (getitem_ack s true k v q).s.queues n = s.queues n) ∧
    (∀ (s : SchedState) (f : FinishedFrame), f.key ∈ s.active_tasks →
      s.queues f.queue = none →
      (worker_finished_task s f).out = Outcome.raised Err.keyError ∧
      (worker_finished_task s f).tr = [Eff.logLine "Finish task", Eff.logLine "Error!"] ∧
      ∀ n, (worker_finished_task s f).s.queues n = s.queues n) := by
  refine ⟨fun s w k q hq hq' => ?_, fun s k v q hq => ?_, fun s f hact hq => ?_⟩
  · refine ⟨?_, ?_, fun n => ?_⟩ <;> simp [setitem_ack, hq, hq']
  · refine ⟨?_, ?_, fun n => ?_⟩ <;> simp [getitem_ack, hq]
  · refine ⟨?_, ?_, fun n => ?_⟩ <;>
      simp [worker_finished_task, if_pos hact, recordAll_queues, record_queues, hq]

/-- A frame for the active task `y` naming an unregistered queue. -/
def frameBadQ : FinishedFrame :=
  { address := "w1", key := "y", duration := 5, dependencies := [],
    queue := "nope", status := TStatus.ok }

/-- Witness for the amended C8 at concrete inputs. -/
theorem ack_unknown_queue_behavior_witness :
    initState.queues "q9" = none ∧
    (setitem_ack initState "w1" "x" (some "q9")).tr = [] ∧
    (getitem_ack initState true "x" "1" "q9").tr =
      [Eff.logLine "Getitem ack", Eff.logLine "Error!"] ∧
    (worker_finished_task stAct frameBadQ).tr =
      [Eff.logLine "Finish task", Eff.logLine "Error!"] :=
  ⟨rfl,
   (ack_unknown_queue_behavior.1 initState "w1" "x" "q9" rfl (by decide)).2.1,
   (ack_unknown_queue_behavior.2.1 initState "x" "1" "q9" rfl).2.1,
   (ack_unknown_queue_behavior.2.2 stAct frameBadQ (by decide) (by decide)).2.1⟩

/-- Dropping one `(key, worker)` pair from both index maps keeps the
bidirectional invariant. -/
theorem erase_both_inv {s : SchedState} (hinv : Inv s) (key : Key) (w : Wkr) :
    Inv { s with
      who_has := updf s.who_has key ((s.who_has key).erase w)
      worker_has := updf s.worker_has w ((s.worker_has w).erase key) } := by
  intro a x
  show x ∈ (if a = key then (s.who_has key).erase w else s.who_has a) ↔
    a ∈ (if x = w then (s.worker_has w).erase key else s.worker_has x)
  by_cases hak : a = key <;> by_cases hxw : x = w
  · rw [if_pos hak, if_pos hxw, hak, hxw]
    simp
  · rw [if_pos hak, if_neg hxw, hak, Finset.mem_erase]
    constructor
    · rintro ⟨-, h⟩
      exact (hinv key x).mp h
    · intro h
      exact ⟨hxw, (hinv key x).mpr h⟩
  · rw [if_neg hak, if_pos hxw, Finset.mem_erase, hxw]
    constructor
    · intro h
      exact ⟨hak, (hinv a w).mp h⟩
    · rintro ⟨-, h⟩
      exact (hinv a w).mpr h
  · rw [if_neg hak, if_neg hxw]
    exact hinv a x

theorem release_loop_run (key : Key) (l : List Wkr) : ∀ s : SchedState, Inv s →
    l.Nodup → (∀ w ∈ l, w ∈ s.who_has key) →
    (release_loop key s l).out = Outcome.ok () ∧
    Inv (release_loop key s l).s ∧
    ((release_loop key s l).s.who_has key = s.who_has key \ l.toFinset) ∧
    (∀ k, k ≠ key → (release_loop key s l).s.who_has k = s.who_has k) ∧
    (∀ w, (release_loop key s l).s.worker_has w =
      if w ∈ l then (s.worker_has w).erase key else s.worker_has w) := by
  induction l with
  | nil =>
      intro s hinv _ _
      exact ⟨rfl, hinv, by simp [release_loop], fun k _ => rfl,
        fun w => by simp [release_loop]⟩
  | cons w ws ih =>
      intro s hinv hnd hmem
      have hw : w ∈ s.who_has key := hmem w (List.mem_cons_self w ws)
      have hk : key ∈ s.worker_has w := (hinv key w).mp hw
      have hnw : w ∉ ws := (List.nodup_cons.mp hnd).1
      have hnd' : ws.Nodup := (List.nodup_cons.mp hnd).2
      set s2 : SchedState := { s with
        who_has := updf s.who_has key ((s.who_has key).erase w)
        worker_has := updf s.worker_has w ((s.worker_has w).erase key) } with hs2
      have hinv2 : Inv s2 := erase_both_inv hinv key w
      have hmem2 : ∀ v ∈ ws, v ∈ s2.who_has key := by
        intro v hv
        have hvw : v ≠ w := fun h => hnw (h ▸ hv)
        have : v ∈ s.who_has key := hmem v (List.mem_cons_of_mem w hv)
        simp [hs2, updf, Finset.mem_erase, hvw, this]
      obtain ⟨h1, h2, h3, h4, h5⟩ := ih s2 hinv2 hnd' hmem2
      have heval : release_loop key s (w :: ws) =
          R.pre [Eff.delitemMsg w key] (release_loop key s2 ws) := by
        simp only [release_loop, if_pos hw]
        rw [if_pos]
        exact hk
      rw [heval]
      refine ⟨h1, h2, ?_, ?_, ?_⟩
      · rw [pre_s, h3]
        have : s2.who_has key = (s.who_has key).erase w := by simp [hs2, updf]
        rw [this]
        ext x
        simp only [Finset.mem_sdiff, Finset.mem_erase, List.toFinset_cons,
          Finset.mem_insert, List.mem_toFinset]
        tauto
      · intro k hkk
        rw [pre_s, h4 k hkk]
        simp [hs2, updf, hkk]
      · intro v
        rw [pre_s, h5 v]
        by_cases hvws : v ∈ ws
        · have hvw : v ≠ w := fun h => hnw (h ▸ hvws)
          simp [hvws, hs2, updf, hvw, List.mem_cons]
        · by_cases hvw : v = w
          · subst hvw
            simp [hvws, hs2, updf]
          · simp [hvws, hs2, updf, hvw, List.mem_cons]

theorem release_key_run (s : SchedState) (key : Key) (hinv : Inv s) :
    (release_key s key).out = Outcome.ok () ∧ Inv (release_key s key).s ∧
    (release_key s key).s.who_has key = ∅ ∧
    (∀ k, k ≠ key → (release_key s key).s.who_has k = s.who_has k) ∧
    (∀ w, (release_key s key).s.worker_has w =
      if w ∈ setList (s.who_has key) then (s.worker_has w).erase key
      else s.worker_has w) := by
  have hnd : (setList (s.who_has key)).Nodup := setList_nodup (s.who_has key)
  have hmem : ∀ w ∈ setList (s.who_has key), w ∈ s.who_has key := by
    intro w hw
    exact setList_mem.mp hw
  obtain ⟨h1, h2, h3, h4, h5⟩ := release_loop_run key (setList (s.who_has key)) s hinv hnd hmem
  refine ⟨h1, h2, ?_, h4, h5⟩
  rw [show (release_key s key).s.who_has key =
    s.who_has key \ (setList (s.who_has key)).toFinset from h3]
  rw [setList_toFinset, Finset.sdiff_self]

/-- C9: for every key and every consistent placement-index state (the claim's
"the bidirectional invariant still holds afterwards" presupposes it held
before), applying `release_key` twice leaves the same `who_has`/`worker_has`
index state as applying it once, and the invariant still holds. -/
theorem release_key_idempotent (s : SchedState) (key : Key) (hinv : Inv s) :
    (release_key (release_key s key).s key).s.who_has = (release_key s key).s.who_has ∧
    (release_key (release_key s key).s key).s.worker_has = (release_key s key).s.worker_has ∧
    Inv (release_key (release_key s key).s key).s := by
  obtain ⟨-, hinv1, hempty, -, -⟩ := release_key_run s key hinv
  have hnil : setList ((release_key s key).s.who_has key) = [] := by
    rw [hempty]
    exact setList_empty
  have hsame : (release_key (release_key s key).s key).s = (release_key s key).s := by
    have hnil' : setList ((release_loop key s (setList (s.who_has key))).s.who_has key) = [] :=
      hnil
    show (release_loop key (release_loop key s (setList (s.who_has key))).s
        (setList ((release_loop key s (setList (s.who_has key))).s.who_has key))).s =
      (release_loop key s (setList (s.who_has key))).s
    rw [hnil']
    simp [release_loop]
  exact ⟨by rw [hsame], by rw [hsame], by rw [hsame]; exact hinv1⟩

/-- A concrete consistent state holding data: `w1` holds `y` and `d1`. -/
def stData : SchedState := (worker_finished_task stAct frameY).s

theorem inv_stAct : Inv stAct :=
  inv_of_eq inv_initState rfl rfl

theorem wft_inv (f : FinishedFrame) {s : SchedState} (h : Inv s) :
    Inv (worker_finished_task s f).s := by
  by_cases hact : f.key ∈ s.active_tasks
  · simp only [worker_finished_task, if_pos hact]
    have hmid : Inv { s with
        active_tasks := s.active_tasks.erase f.key
        durations := updf s.durations f.key (some f.duration) } :=
      inv_of_eq h rfl rfl
    split
    · intro a x
      exact (recordAll_inv f.address f.dependencies _
        (record_inv hmid f.key f.address)) a x
    · intro a x
      exact (recordAll_inv f.address f.dependencies _
        (record_inv hmid f.key f.address)) a x
  · simp only [worker_finished_task, if_neg hact]
    exact h

theorem inv_stData : Inv stData :=
  wft_inv frameY inv_stAct

/-- Witness for C9 at a concrete input. -/
theorem release_key_idempotent_witness :
    Inv stData ∧
    (release_key (release_key stData "y").s "y").s.who_has =
      (release_key stData "y").s.who_has :=
  ⟨inv_stData, (release_key_idempotent stData "y" inv_stData).1⟩

mutual

theorem gatherSendK_ok (pick : List String → Option String) (hpv : PickValid pick)
    (qkey : String) : ∀ (spec : KeySpec) (s : SchedState),
    (∀ k ∈ flattenK spec, s.who_has k ≠ ∅) →
    (gatherSendK pick qkey spec s).out = Outcome.ok () ∧
    (gatherSendK pick qkey spec s).s = s
  | KeySpec.leaf key, s, h => by
      have hne : s.who_has key ≠ ∅ := h key (by simp [flattenK])
      have hlne : setList (s.who_has key) ≠ [] := by
        intro hnil
        apply hne
        ext a
        simp only [Finset.not_mem_empty, iff_false]
        intro ha
        have hmem : a ∈ setList (s.who_has key) := setList_mem.mpr ha
        rw [hnil] at hmem
        exact absurd hmem (List.not_mem_nil a)
      obtain ⟨w, hw, -⟩ := (hpv (setList (s.who_has key))).2 hlne
      simp [gatherSendK, hw]
  | KeySpec.node ks, s, h => gatherSendL_ok pick hpv qkey ks s (by simpa [flattenK] using h)

theorem gatherSendL_ok (pick : List String → Option String) (hpv : PickValid pick)
    (qkey : String) : ∀ (ks : List KeySpec) (s : SchedState),
    (∀ k ∈ flattenL ks, s.who_has k ≠ ∅) →
    (gatherSendL pick qkey ks s).out = Outcome.ok () ∧
    (gatherSendL pick qkey ks s).s = s
  | [], s, _ => ⟨rfl, rfl⟩
  | k :: ks, s, h => by
      have hk := gatherSendK_ok pick hpv qkey k s (by
        intro x hx
        exact h x (by simp [flattenL, hx]))
      have hks := gatherSendL_ok pick hpv qkey ks s (by
        intro x hx
        exact h x (by simp [flattenL, hx]))
      rw [gatherSendL, seq_of_ok _ hk.1, hk.2]
      exact ⟨hks.1, hks.2⟩

end

mutual

theorem gatherSendK_missing (pick : List String → Option String) (hpv : PickValid pick)
    (qkey : String) : ∀ (spec : KeySpec) (s : SchedState),
    (∃ k ∈ flattenK spec, s.who_has k = ∅) →
    (gatherSendK pick qkey spec s).out = Outcome.raised Err.missingData
  | KeySpec.leaf key, s, h => by
      obtain ⟨k, hk, hempty⟩ := h
      have hkey : k = key := by simpa [flattenK] using hk
      subst hkey
      have hnil : setList (s.who_has k) = [] := by
        rw [hempty]
        exact setList_empty
      have hp := (hpv (setList (s.who_has k))).1 hnil
      simp [gatherSendK, hp]
  | KeySpec.node ks, s, h =>
      gatherSendL_missing pick hpv qkey ks s (by simpa [flattenK] using h)

theorem gatherSendL_missing (pick : List String → Option String) (hpv : PickValid pick)
    (qkey : String) : ∀ (ks : List KeySpec) (s : SchedState),
    (∃ k ∈ flattenL ks, s.who_has k = ∅) →
    (gatherSendL pick qkey ks s).out = Outcome.raised Err.missingData
  | [], s, h => by
      obtain ⟨k, hk, -⟩ := h
      exact absurd hk (by simp [flattenL])
  | k :: ks, s, h => by
      by_cases hc : ∃ x ∈ flattenK k, s.who_has x = ∅
      · have hout := gatherSendK_missing pick hpv qkey k s hc
        rw [gatherSendL, seq_of_raised _ hout]
      · push_neg at hc
        have hok := gatherSendK_ok pick hpv qkey k s (by
          intro x hx
          exact hc x hx)
        obtain ⟨x, hx, hempty⟩ := h
        have hxks : x ∈ flattenL ks := by
          rcases List.mem_append.mp (by simpa [flattenL] using hx) with h1 | h2
          · exact absurd hempty (hc x h1)
          · exact h2
        have hrest := gatherSendL_missing pick hpv qkey ks s ⟨x, hxks, hempty⟩
        rw [gatherSendL, seq_of_ok _ hok.1, hok.2]
        exact hrest

end

/-- C5: for every `gather` call whose flattened key list contains a key whose
holder set is empty at send time, `gather` fails with the spec's
`MissingData` error (the `IndexError` from `random.choice` on the empty
holder snapshot in `_gather_send`) rather than any other exception. -/
theorem gather_missing_data (pick : List String → Option String)
    (hpv : PickValid pick) (qkey : String) (replies : List (Key × Val))
    (s : SchedState) (keys : KeySpec) (k : Key) (hk : k ∈ flattenK keys)
    (hempty : s.who_has k = ∅) :
    (gather pick qkey replies s keys).out = Outcome.raised Err.missingData := by
  have h : (gatherSendK pick qkey keys
      { s with queues := updf s.queues qkey (some []) }).out =
      Outcome.raised Err.missingData :=
    gatherSendK_missing pick hpv qkey keys _ ⟨k, hk, hempty⟩
  simp [gather, seq_of_raised _ h]

theorem seq_s_of_const {α β : Type} (r : R α) (g : α → SchedState → R β)
    (hg : ∀ (a : α) (s0 : SchedState), (g a s0).s = s0) : (R.seq r g).s = r.s := by
  cases hout : r.out <;> simp [R.seq, hout, hg]

theorem release_loop_queues (key : Key) (l : List Wkr) : ∀ s : SchedState,
    (release_loop key s l).s.queues = s.queues := by
  induction l with
  | nil => intro s; rfl
  | cons w ws ih =>
      intro s
      simp only [release_loop]
      split
      · split
        · rw [pre_s]
          exact ih _
        · rfl
      · rfl

theorem release_key_queues (s : SchedState) (key : Key) :
    (release_key s key).s.queues = s.queues :=
  release_loop_queues key (setList (s.who_has key)) s

theorem _release_data_queues (s : SchedState) (dag : DagState) (key : Key)
    (del : Bool) : (_release_data s dag key del).s.queues = s.queues := by
  simp only [_release_data]
  split
  · split
    · split
      · rw [seq_s_of_const _ _ (fun a s0 => rfl)]
        exact release_key_queues s key
      · rfl
    · rfl
  · split
    · rw [seq_s_of_const _ _ (fun a s0 => rfl)]
      exact release_key_queues s key
    · rfl

theorem seq_s_queues {α β : Type} (r : R α) (g : α → SchedState → R β)
    (hg : ∀ a : α, (g a r.s).s.queues = r.s.queues) :
    (R.seq r g).s.queues = r.s.queues := by
  cases hout : r.out <;> simp [R.seq, hout]
  exact hg _

theorem releaseDeps_queues (dsk : Graph) (results : List Key) (key : Key)
    (deps : List Key) : ∀ (s : SchedState) (dag : DagState),
    (releaseDeps dsk results key s dag deps).s.queues = s.queues := by
  induction deps with
  | nil => intro s dag; rfl
  | cons dep rest ih =>
      intro s dag
      simp only [releaseDeps]
      split
      · exact (seq_s_queues _ _ (fun dag2 => ih _ _)).trans
          (_release_data_queues _ _ _ _)
      · exact ih _ _

theorem finish_task_queues (dsk : Graph) (key : Key) (results : List Key)
    (s : SchedState) (dag : DagState) :
    (finish_task dsk key results s dag).s.queues = s.queues :=
  releaseDeps_queues dsk results key (get_dependencies dsk key) s _

theorem trigger_queues (s : SchedState) (dsk : Graph) (key : Key) (q : String) :
    (trigger_task s dsk key q).s.queues = s.queues := by
  simp only [trigger_task]
  split <;> rfl

theorem fireLoopGo_queues (dsk : Graph) (qkey : String) : ∀ (n : Nat)
    (s : SchedState) (dag : DagState),
    (fireLoopGo dsk qkey n s dag).s.queues = s.queues := by
  intro n
  induction n with
  | zero => intro s dag; rfl
  | succ n ih =>
      intro s dag
      simp only [fireLoopGo]
      split
      · rfl
      · split
        · rfl
        · exact (seq_s_queues _ _ (fun a => ih _ _)).trans (trigger_queues _ dsk _ qkey)

theorem fireLoop_queues (dsk : Graph) (qkey : String) : ∀ (s : SchedState)
    (dag : DagState), (fireLoop dsk qkey s dag).s.queues = s.queues :=
  fun s dag => fireLoopGo_queues dsk qkey dag.ready.length s dag

theorem wft_queues_isSome (s : SchedState) (f : FinishedFrame) (n : String)
    (h : (s.queues n).isSome = true) :
    ((worker_finished_task s f).s.queues n).isSome = true := by
  by_cases hact : f.key ∈ s.active_tasks
  · simp only [worker_finished_task, if_pos hact]
    split
    · simp only [updf]
      split
      · simp
      · simpa using h
    · simpa using h
  · simpa [worker_finished_task, if_neg hact] using h

theorem popQ_queues_isSome {s : SchedState} {qkey : String} {p : QItem}
    {s2 : SchedState} (hpop : popQ s qkey = some (p, s2)) (n : String)
    (h : (s.queues n).isSome = true) : (s2.queues n).isSome = true := by
  unfold popQ at hpop
  split at hpop
  · simp only [Option.some.injEq, Prod.mk.injEq] at hpop
    rw [← hpop.2]
    simp only [updf]
    split
    · simp
    · exact h
  · exact absurd hpop (by simp)

theorem seq_queues_isSome {α β : Type} (r : R α) (g : α → SchedState → R β)
    (n : String) (hr : (r.s.queues n).isSome = true)
    (hg : ∀ a : α, ((g a r.s).s.queues n).isSome = true) :
    ((R.seq r g).s.queues n).isSome = true := by
  cases hout : r.out with
  | ok a =>
      rw [seq_of_ok _ hout]
      exact hg a
  | raised e =>
      rw [seq_of_raised _ hout]
      exact hr
  | blocked =>
      simp only [R.seq, hout]
      exact hr

theorem mainLoop_queues_isSome (dsk : Graph) (qkey : String) (results : List Key)
    (n : String) : ∀ (events : List FinishedFrame) (s : SchedState) (dag : DagState),
    (s.queues n).isSome = true →
    ((mainLoop dsk qkey results events s dag).s.queues n).isSome = true := by
  intro events
  induction events with
  | nil =>
      intro s dag h
      rw [mainLoop]
      split
      · exact h
      · exact h
  | cons e rest ih =>
      intro s dag h
      rw [mainLoop]
      dsimp only
      have hs' : ((worker_finished_task s e).s.queues n).isSome = true :=
        wft_queues_isSome s e n h
      split
      · exact h
      · split
        · exact ih _ _ hs'
        · split
          · exact ih _ _ hs'
          · split
            · next s2 p f heq =>
                split
                · exact popQ_queues_isSome heq n hs'
                · rw [pre_s]
                  refine seq_queues_isSome _ _ n ?_ ?_
                  · rw [finish_task_queues]
                    exact popQ_queues_isSome heq n hs'
                  · intro dag2
                    refine seq_queues_isSome _ _ n ?_ ?_
                    · rw [fireLoop_queues, finish_task_queues]
                      exact popQ_queues_isSome heq n hs'
                    · intro dag3
                      refine ih _ _ ?_
                      rw [fireLoop_queues, finish_task_queues]
                      exact popQ_queues_isSome heq n hs'
            · next p1 s2 heq p hnf =>
                exact popQ_queues_isSome heq n hs'

theorem scatter_out_ok (s : SchedState) (qk : String) (pairs : List (Key × Val))
    (block : Bool) : (scatter s qk pairs block).out = Outcome.ok () := by
  simp only [scatter]
  split <;> rfl

mutual

theorem gatherSendK_state (pick : List String → Option String) (qkey : String) :
    ∀ (spec : KeySpec) (s : SchedState), (gatherSendK pick qkey spec s).s = s
  | KeySpec.leaf key, s => by
      simp only [gatherSendK]
      split <;> rfl
  | KeySpec.node ks, s => gatherSendL_state pick qkey ks s

theorem gatherSendL_state (pick : List String → Option String) (qkey : String) :
    ∀ (ks : List KeySpec) (s : SchedState), (gatherSendL pick qkey ks s).s = s
  | [], s => rfl
  | k :: ks, s => by
      have hk := gatherSendK_state pick qkey k s
      have hks := gatherSendL_state pick qkey ks (gatherSendK pick qkey k s).s
      cases hout : (gatherSendK pick qkey k s).out with
      | ok a =>
          rw [gatherSendL, seq_of_ok _ hout]
          rw [show (R.mk _ _ _).s = _ from rfl]
          rw [hks, hk]
      | raised e =>
          rw [gatherSendL, seq_of_raised _ hout]
          exact hk
      | blocked =>
          rw [gatherSendL]
          simp only [R.seq, hout]
          exact hk

end

theorem gather_queues_other (pick : List String → Option String) (gathQ : String)
    (replies : List (Key × Val)) (s : SchedState) (keys : KeySpec) (n : String)
    (hn : n ≠ gathQ) : (gather pick gathQ replies s keys).s.queues n = s.queues n := by
  simp only [gather]
  cases hout : (gatherSendK pick gathQ keys
      { s with queues := updf s.queues gathQ (some []) }).out with
  | ok a =>
      rw [seq_of_ok _ hout]
      rw [show (R.mk _ _ _).s = _ from rfl]
      split
      · split
        · rw [gatherSendK_state]
          simp [updf, hn]
        · rw [gatherSendK_state]
          simp [updf, hn]
      · rw [gatherSendK_state]
        simp [updf, hn]
  | raised e =>
      rw [seq_of_raised _ hout]
      rw [gatherSendK_state]
      simp [updf, hn]
  | blocked =>
      simp only [R.seq, hout]
      rw [gatherSendK_state]
      simp [updf, hn]

/-- Counterexample to C3 as stated: `scatter` with `block = False` leaves its
queue name registered when it returns, and a successful `schedule` run
returns with its event rendezvous still in the registry — `schedule` never
deletes it, neither before nor after the final `gather`. -/
theorem queue_leak_counterexample :
    (scatter st1 "q1" [("x", "1")] false).s.queues "q1" = some [] ∧
    (schedule headPick "sq" "eq" "gq" [] [("x", "1")]
      [("x", Task.lit "1")] (KeySpec.leaf "x") st1).out =
        Outcome.ok (RVal.leaf "1") ∧
    ((schedule headPick "sq" "eq" "gq" [] [("x", "1")]
      [("x", Task.lit "1")] (KeySpec.leaf "x") st1).s.queues "eq").isSome = true :=
  ⟨rfl, rfl, rfl⟩

/-- C3 amended: `send_data` with reply, blocking `scatter`, and `gather`
(when it returns) each remove their rendezvous queue name by return; but
`scatter` with `block = False` leaves its queue name registered, and
`schedule` never closes its event rendezvous — the name is still registered
when `schedule` returns (and `gather` runs while it is still open). -/
theorem queue_registry_lifecycle :
    (∀ (pick : List String → Option String) (s : SchedState) (qkey : String)
        (key : Key) (value : Val) (addr : Option Wkr),
      (send_data pick s qkey key value addr true).out = Outcome.ok () →
      (send_data pick s qkey key value addr true).s.queues qkey = none) ∧
    (∀ (s : SchedState) (qk : String) (pairs : List (Key × Val)),
      (scatter s qk pairs true).s.queues qk = none) ∧
    (∀ (pick : List String → Option String) (qk : String)
        (replies : List (Key × Val)) (s : SchedState) (keys : KeySpec) (v : RVal),
      (gather pick qk replies s keys).out = Outcome.ok v →
      (gather pick qk replies s keys).s.queues qk = none) ∧
    (∀ (s : SchedState) (qk : String) (pairs : List (Key × Val)),
      (scatter s qk pairs false).s.queues qk = some []) ∧
    (∀ (pick : List String → Option String) (scatQ qkey gathQ : String)
        (events : List FinishedFrame) (replies : List (Key × Val)) (dsk : Graph)
        (result : KeySpec) (s : SchedState) (v : RVal), gathQ ≠ qkey →
      (schedule pick scatQ qkey gathQ events replies dsk result s).out = Outcome.ok v →
      ((schedule pick scatQ qkey gathQ events replies dsk result s).s.queues qkey).isSome
        = true) := by
  refine ⟨?_, ?_, ?_, ?_, ?_⟩
  · intro pick s qkey key value addr hok
    simp only [send_data] at hok ⊢
    split at hok
    · exact absurd hok (by simp)
    · simp [updf]
  · intro s qk pairs
    simp [scatter, updf]
  · intro pick qk replies s keys v hok
    simp only [gather] at hok ⊢
    cases hout : (gatherSendK pick qk keys
        { s with queues := updf s.queues qk (some []) }).out with
    | ok a =>
        rw [seq_of_ok _ hout] at hok ⊢
        split
        · split
          · simp [updf]
          · simp [updf]
        · next hlen =>
            rw [if_neg hlen] at hok
            exact absurd hok (by simp)
    | raised e =>
        rw [seq_of_raised _ hout] at hok
        exact absurd hok (by simp)
    | blocked =>
        simp only [R.seq, hout] at hok
        exact absurd hok (by simp)
  · intro s qk pairs
    simp [scatter, updf]
  · intro pick scatQ qkey gathQ events replies dsk result s v hqg hok
    simp only [schedule] at hok ⊢
    rw [seq_of_ok _ (scatter_out_ok s scatQ (dag_state_from_dask dsk).1 true)] at hok ⊢
    dsimp only at hok ⊢
    split at hok
    · exact absurd hok (by simp)
    · next hcond =>
        rw [if_neg hcond]
        refine seq_queues_isSome _ _ qkey ?_ ?_
        · rw [fireLoop_queues]
          simp [updf]
        · intro dag1
          refine seq_queues_isSome _ _ qkey ?_ ?_
          · refine mainLoop_queues_isSome dsk qkey _ qkey events _ dag1 ?_
            rw [fireLoop_queues]
            simp [updf]
          · intro u
            rw [gather_queues_other pick gathQ replies _ result qkey
              (Ne.symm hqg)]
            refine mainLoop_queues_isSome dsk qkey _ qkey events _ dag1 ?_
            rw [fireLoop_queues]
            simp [updf]

/-- Witness for the amended C3 at concrete inputs. -/
theorem queue_registry_lifecycle_witness :
    (send_data headPick st1 "qa" "x" "1" none true).out = Outcome.ok () ∧
    (send_data headPick st1 "qa" "x" "1" none true).s.queues "qa" = none ∧
    ((schedule headPick "sq" "eq" "gq" [] [("x", "1")]
      [("x", Task.lit "1")] (KeySpec.leaf "x") st1).s.queues "eq").isSome = true :=
  ⟨rfl,
   queue_registry_lifecycle.1 headPick st1 "qa" "x" "1" none rfl,
   queue_registry_lifecycle.2.2.2.2 headPick "sq" "eq" "gq" [] [("x", "1")]
     [("x", Task.lit "1")] (KeySpec.leaf "x") st1 (RVal.leaf "1") (by decide) rfl⟩

/-- A concrete graph with a cached literal and a dependency cycle. -/
def dskCyc : Graph :=
  [("x", Task.lit "1"), ("a", Task.node ["b"]), ("b", Task.node ["a"])]

/-- Counterexample to C4 as stated: on a graph with a cached literal and a
cycle, `schedule` does fail with `UnreachableTasks`, but a `setitem` frame
for the literal has already been sent — the scatter of the cache runs before
the unreachable-tasks check. -/
theorem unreachable_check_after_scatter_counterexample :
    (schedule headPick "sq" "eq" "gq" [] [] dskCyc (KeySpec.leaf "a") st1).out =
      Outcome.raised Err.unreachableTasks ∧
    (schedule headPick "sq" "eq" "gq" [] [] dskCyc
      (KeySpec.leaf "a") st1).tr.any Eff.isSetitem = true :=
  ⟨rfl, rfl⟩

theorem scatter_sends (s : SchedState) (qk : String) (pairs : List (Key × Val))
    (block : Bool) (hp : pairs ≠ []) (hw : s.workers ≠ []) :
    (scatter s qk pairs block).tr.any Eff.isSetitem = true := by
  rcases pairs with _ | ⟨p, ps⟩
  · exact absurd rfl hp
  rcases hws : s.workers with _ | ⟨w, ws⟩
  · exact absurd hws hw
  have hlen : ((p :: ps).zip (cycleList (w :: ws) (p :: ps).length)).length =
      ps.length + 1 := by
    simp [List.length_zip, cycleList]
  rcases htg : (p :: ps).zip (cycleList (w :: ws) (p :: ps).length) with _ | ⟨t, ts⟩
  · rw [htg] at hlen
    simp at hlen
  · simp only [scatter, hws, htg]
    split <;> simp [Eff.isSetitem]

/-- C4 amended: for every graph whose initial DAG state has non-empty
`waiting` and empty `ready`, `schedule` fails with the spec's
`UnreachableTasks` — but the check runs only after step 3's scatter of the
cached literal entries: the run's whole trace is the scatter trace, and
whenever the cache is non-empty and a worker is registered, a `setitem` has
been sent to a worker by the time the run fails. -/
theorem schedule_unreachable_after_scatter (pick : List String → Option String)
    (scatQ qkey gathQ : String) (events : List FinishedFrame)
    (replies : List (Key × Val)) (dsk : Graph) (result : KeySpec) (s : SchedState)
    (hw : (dag_state_from_dask dsk).2.waiting ≠ [])
    (hr : (dag_state_from_dask dsk).2.ready = []) :
    (schedule pick scatQ qkey gathQ events replies dsk result s).out =
      Outcome.raised Err.unreachableTasks ∧
    (schedule pick scatQ qkey gathQ events replies dsk result s).tr =
      (scatter s scatQ (dag_state_from_dask dsk).1 true).tr ∧
    ((dag_state_from_dask dsk).1 ≠ [] → s.workers ≠ [] →
      (schedule pick scatQ qkey gathQ events replies dsk result s).tr.any
        Eff.isSetitem = true) := by
  have hsch : schedule pick scatQ qkey gathQ events replies dsk result s =
      ⟨(scatter s scatQ (dag_state_from_dask dsk).1 true).s,
       (scatter s scatQ (dag_state_from_dask dsk).1 true).tr ++ [],
       Outcome.raised Err.unreachableTasks⟩ := by
    simp only [schedule]
    rw [seq_of_ok _ (scatter_out_ok s scatQ (dag_state_from_dask dsk).1 true)]
    rw [if_pos ⟨hw, hr⟩]
  rw [hsch]
  refine ⟨rfl, by simp, ?_⟩
  intro hc hwork
  simpa using scatter_sends s scatQ (dag_state_from_dask dsk).1 true hc hwork

/-- Witness for the amended C4 at a concrete input. -/
theorem schedule_unreachable_after_scatter_witness :
    (dag_state_from_dask dskCyc).2.waiting ≠ [] ∧
    (dag_state_from_dask dskCyc).2.ready = [] ∧
    (schedule headPick "sq2" "eq2" "gq2" [] [] dskCyc (KeySpec.leaf "a") st1).out =
      Outcome.raised Err.unreachableTasks :=
  ⟨by decide, by decide,
   (schedule_unreachable_after_scatter headPick "sq2" "eq2" "gq2" [] [] dskCyc
     (KeySpec.leaf "a") st1 (by decide) (by decide)).1⟩

/-- C6: a `finished-task` completion event carrying a non-OK status (an
exception, per `isinstance(payload['status'], Exception)`) makes the main
loop re-raise it at once — the run aborts with the spec's `TaskFailure`, no
further `compute` frame is fired and no `getitem` (gather) frame is sent —
and `schedule_from_client` answers any raising run with a `schedule-ack`
frame of header status `"Error"` whose result payload is the error value. -/
theorem task_failure_aborts :
    (∀ (dsk : Graph) (qkey : String) (results : List Key) (e : FinishedFrame)
        (rest : List FinishedFrame) (s : SchedState) (dag : DagState) (m : String),
      ¬(dag.waiting = [] ∧ dag.ready = [] ∧ dag.running = ∅) →
      e.key ∈ s.active_tasks → s.queues e.queue = some [] → e.queue = qkey →
      e.status = TStatus.exc m →
      (mainLoop dsk qkey results (e :: rest) s dag).out =
        Outcome.raised (Err.taskFailure m) ∧
      (∀ eff ∈ (mainLoop dsk qkey results (e :: rest) s dag).tr,
        eff.isCompute = false ∧ eff.isGetitem = false)) ∧
    (∀ (pick : List String → Option String) (scatQ qkey gathQ : String)
        (events : List FinishedFrame) (replies : List (Key × Val))
        (address : String) (dsk : Graph) (keys : KeySpec) (s : SchedState)
        (e' : Err),
      (schedule pick scatQ qkey gathQ events replies dsk keys s).out =
        Outcome.raised e' →
      (schedule_from_client pick scatQ qkey gathQ events replies address dsk keys s).out
        = Outcome.ok () ∧
      (schedule_from_client pick scatQ qkey gathQ events replies address dsk keys s).tr
        = (schedule pick scatQ qkey gathQ events replies dsk keys s).tr ++
          [Eff.clientMsg address "schedule-ack" "Error" (AckResult.errVal e')]) := by
  constructor
  · intro dsk qkey results e rest s dag m hcond hact hq hqe hst
    obtain ⟨ho, htr, -, -, -, hqs, -, -, -⟩ := wft_run s e [] hact hq
    have hpop : popQ (worker_finished_task s e).s qkey =
        some (QItem.qfin e, { (worker_finished_task s e).s with
          queues := updf (worker_finished_task s e).s.queues qkey (some []) }) := by
      simp only [popQ, hqs, ← hqe, updf, if_pos rfl]
      rfl
    rw [mainLoop]
    dsimp only
    rw [if_neg hcond, ho]
    dsimp only
    rw [hpop]
    dsimp only
    rw [hst]
    dsimp only
    refine ⟨rfl, ?_⟩
    rw [htr]
    intro eff heff
    simp only [List.mem_singleton] at heff
    subst heff
    exact ⟨rfl, rfl⟩
  · intro pick scatQ qkey gathQ events replies address dsk keys s e' hraise
    simp only [schedule_from_client]
    rw [hraise]
    exact ⟨rfl, rfl⟩

/-- A concrete DAG state with `y` running. -/
def dagY : DagState :=
  { waiting := [], ready := [], readySet := [], running := {"y"},
    released := ∅, waiting_data := [("y", [])] }

/-- A concrete failing `finished-task` frame for `y` on the run queue `eq1`. -/
def frameErr : FinishedFrame :=
  { address := "w1", key := "y", duration := 2, dependencies := [],
    queue := "eq1", status := TStatus.exc "boom" }

/-- A concrete failing `finished-task` frame for `y` on the run queue `eq`. -/
def frameErr2 : FinishedFrame :=
  { address := "w1", key := "y", duration := 2, dependencies := [],
    queue := "eq", status := TStatus.exc "boom" }

/-- Witness for C6 at concrete inputs. -/
theorem task_failure_aborts_witness :
    (¬(dagY.waiting = [] ∧ dagY.ready = [] ∧ dagY.running = ∅) ∧
      "y" ∈ stAct.active_tasks ∧ stAct.queues "eq1" = some [] ∧
      (mainLoop dskY "eq1" ["y"] [frameErr] stAct dagY).out =
        Outcome.raised (Err.taskFailure "boom")) ∧
    ((schedule headPick "sq" "eq" "gq" [frameErr2] [] dskY (KeySpec.leaf "y") st1).out
        = Outcome.raised (Err.taskFailure "boom") ∧
      (schedule_from_client headPick "sq" "eq" "gq" [frameErr2] [] "client" dskY
        (KeySpec.leaf "y") st1).out = Outcome.ok ()) :=
  ⟨⟨by decide, by decide, by decide,
    (task_failure_aborts.1 dskY "eq1" ["y"] frameErr [] stAct dagY "boom"
      (by decide) (by decide) (by decide) rfl rfl).1⟩,
   ⟨rfl,
    (task_failure_aborts.2 headPick "sq" "eq" "gq" [frameErr2] [] "client" dskY
      (KeySpec.leaf "y") st1 (Err.taskFailure "boom") rfl).1⟩⟩

theorem seq_inv {α β : Type} (r : R α) (g : α → SchedState → R β) (hr : Inv r.s)
    (hg : ∀ a : α, Inv (g a r.s).s) : Inv (R.seq r g).s := by
  cases hout : r.out with
  | ok a =>
      rw [seq_of_ok _ hout]
      exact hg a
  | raised e =>
      rw [seq_of_raised _ hout]
      exact hr
  | blocked =>
      simp only [R.seq, hout]
      exact hr

theorem setitem_ack_inv {s : SchedState} (h : Inv s) (w : Wkr) (k : Key)
    (q : Option String) : Inv (setitem_ack s w k q).s := by
  simp only [setitem_ack]
  split
  · exact record_inv h k w
  · split
    · exact record_inv h k w
    · split
      · exact inv_of_eq (record_inv h k w) rfl rfl
      · exact record_inv h k w

theorem getitem_ack_inv {s : SchedState} (h : Inv s) (statusOK : Bool) (k : Key)
    (v : Val) (q : String) : Inv (getitem_ack s statusOK k v q).s := by
  simp only [getitem_ack]
  split
  · split
    · exact inv_of_eq h rfl rfl
    · exact h
  · exact h

theorem release_key_inv {s : SchedState} (h : Inv s) (key : Key) :
    Inv (release_key s key).s :=
  (release_key_run s key h).2.1

theorem scatterAcks_inv (qkey : String) (targets : List ((Key × Val) × Wkr)) :
    ∀ s : SchedState, Inv s → Inv (scatterAcks qkey s targets) := by
  induction targets with
  | nil => intro s h; exact h
  | cons t ts ih =>
      intro s h
      exact ih _ (setitem_ack_inv h t.2 t.1.1 (some qkey))

theorem scatter_inv {s : SchedState} (h : Inv s) (qk : String)
    (pairs : List (Key × Val)) (block : Bool) : Inv (scatter s qk pairs block).s := by
  have h1 : Inv { s with queues := updf s.queues qk (some []) } := inv_of_eq h rfl rfl
  have h2 : Inv (scatterAcks qk { s with queues := updf s.queues qk (some []) }
      (pairs.zip (cycleList s.workers pairs.length))) :=
    scatterAcks_inv qk _ _ h1
  simp only [scatter]
  split
  · exact inv_of_eq h2 rfl rfl
  · exact h1

theorem trigger_inv {s : SchedState} (h : Inv s) (dsk : Graph) (key : Key)
    (q : String) : Inv (trigger_task s dsk key q).s := by
  simp only [trigger_task]
  split
  · exact h
  · exact inv_of_eq h rfl rfl

theorem fireLoopGo_inv (dsk : Graph) (qkey : String) : ∀ (n : Nat)
    (s : SchedState) (dag : DagState), Inv s → Inv (fireLoopGo dsk qkey n s dag).s := by
  intro n
  induction n with
  | zero => intro s dag h; exact h
  | succ n ih =>
      intro s dag h
      simp only [fireLoopGo]
      split
      · exact h
      · split
        · exact h
        · exact seq_inv _ _ (trigger_inv h dsk _ qkey)
            (fun a => ih _ _ (trigger_inv h dsk _ qkey))

theorem fireLoop_inv {s : SchedState} (h : Inv s) (dsk : Graph) (qkey : String)
    (dag : DagState) : Inv (fireLoop dsk qkey s dag).s :=
  fireLoopGo_inv dsk qkey dag.ready.length s dag h

theorem _release_data_inv {s : SchedState} (h : Inv s) (dag : DagState)
    (key : Key) (del : Bool) : Inv (_release_data s dag key del).s := by
  simp only [_release_data]
  split
  · split
    · split
      · exact seq_inv _ _ (release_key_inv h key) (fun a => release_key_inv h key)
      · exact h
    · exact h
  · split
    · exact seq_inv _ _ (release_key_inv h key) (fun a => release_key_inv h key)
    · exact h

theorem releaseDeps_inv (dsk : Graph) (results : List Key) (key : Key)
    (deps : List Key) : ∀ (s : SchedState) (dag : DagState), Inv s →
    Inv (releaseDeps dsk results key s dag deps).s := by
  induction deps with
  | nil => intro s dag h; exact h
  | cons dep rest ih =>
      intro s dag h
      simp only [releaseDeps]
      split
      · exact seq_inv _ _ (_release_data_inv h _ dep true)
          (fun dag2 => ih _ _ (_release_data_inv h _ dep true))
      · exact ih _ _ h

theorem finish_task_inv {s : SchedState} (h : Inv s) (dsk : Graph) (key : Key)
    (results : List Key) (dag : DagState) : Inv (finish_task dsk key results s dag).s :=
  releaseDeps_inv dsk results key (get_dependencies dsk key) s _ h

theorem popQ_inv {s s2 : SchedState} {qkey : String} {p : QItem}
    (hpop : popQ s qkey = some (p, s2)) (h : Inv s) : Inv s2 := by
  unfold popQ at hpop
  split at hpop
  · simp only [Option.some.injEq, Prod.mk.injEq] at hpop
    rw [← hpop.2]
    exact inv_of_eq h rfl rfl
  · exact absurd hpop (by simp)

theorem mainLoop_inv (dsk : Graph) (qkey : String) (results : List Key) :
    ∀ (events : List FinishedFrame) (s : SchedState) (dag : DagState), Inv s →
    Inv (mainLoop dsk qkey results events s dag).s := by
  intro events
  induction events with
  | nil =>
      intro s dag h
      rw [mainLoop]
      split
      · exact h
      · exact h
  | cons e rest ih =>
      intro s dag h
      rw [mainLoop]
      dsimp only
      have h1 : Inv (worker_finished_task s e).s := wft_inv e h
      split
      · exact h
      · split
        · exact ih _ _ h1
        · split
          · exact ih _ _ h1
          · split
            · next s2 p f heq =>
                split
                · exact popQ_inv heq h1
                · rw [pre_s]
                  refine seq_inv _ _ (finish_task_inv (popQ_inv heq h1) dsk _ results _)
                    (fun dag2 => ?_)
                  refine seq_inv _ _
                    (fireLoop_inv (finish_task_inv (popQ_inv heq h1) dsk _ results _)
                      dsk qkey _) (fun dag3 => ?_)
                  exact ih _ _
                    (fireLoop_inv (finish_task_inv (popQ_inv heq h1) dsk _ results _)
                      dsk qkey _)
            · next p1 s2 heq p hnf =>
                exact popQ_inv heq h1

theorem gather_inv {s : SchedState} (h : Inv s)
    (pick : List String → Option String) (qk : String)
    (replies : List (Key × Val)) (keys : KeySpec) :
    Inv (gather pick qk replies s keys).s := by
  simp only [gather]
  have h1 : Inv { s with queues := updf s.queues qk (some []) } :=
    inv_of_eq h rfl rfl
  refine seq_inv _ _ ?_ (fun a => ?_)
  · rw [gatherSendK_state]
    exact h1
  · split
    · split
      · exact inv_of_eq h1 (by rw [gatherSendK_state]) (by rw [gatherSendK_state])
      · exact inv_of_eq h1 (by rw [gatherSendK_state]) (by rw [gatherSendK_state])
    · rw [gatherSendK_state]
      exact h1

/-- C1: the bidirectional placement invariant `w ∈ who_has[k] ⇔ k ∈
worker_has[w]` is preserved by every handler (`setitem_ack`,
`worker_finished_task`, `getitem_ack`) and by every scheduling operation
(`release_key`, `schedule`), whatever their outcome. -/
theorem placement_index_consistent (s : SchedState) (hinv : Inv s) :
    (∀ (w : Wkr) (k : Key) (q : Option String), Inv (setitem_ack s w k q).s) ∧
    (∀ f : FinishedFrame, Inv (worker_finished_task s f).s) ∧
    (∀ (statusOK : Bool) (k : Key) (v : Val) (q : String),
      Inv (getitem_ack s statusOK k v q).s) ∧
    (∀ k : Key, Inv (release_key s k).s) ∧
    (∀ (pick : List String → Option String) (scatQ qkey gathQ : String)
        (events : List FinishedFrame) (replies : List (Key × Val)) (dsk : Graph)
        (result : KeySpec),
      Inv (schedule pick scatQ qkey gathQ events replies dsk result s).s) := by
  refine ⟨fun w k q => setitem_ack_inv hinv w k q,
    fun f => wft_inv f hinv,
    fun statusOK k v q => getitem_ack_inv hinv statusOK k v q,
    fun k => release_key_inv hinv k,
    fun pick scatQ qkey gathQ events replies dsk result => ?_⟩
  simp only [schedule]
  have h1 : Inv (scatter s scatQ (dag_state_from_dask dsk).1 true).s :=
    scatter_inv hinv scatQ _ true
  have h2 : Inv { (scatter s scatQ (dag_state_from_dask dsk).1 true).s with
      queues := updf (scatter s scatQ (dag_state_from_dask dsk).1 true).s.queues
        qkey (some []) } :=
    inv_of_eq h1 rfl rfl
  refine seq_inv _ _ h1 (fun a => ?_)
  split
  · exact h1
  · have h3 : Inv (fireLoop dsk qkey
        { (scatter s scatQ (dag_state_from_dask dsk).1 true).s with
          queues := updf (scatter s scatQ (dag_state_from_dask dsk).1 true).s.queues
            qkey (some []) } (dag_state_from_dask dsk).2).s :=
      fireLoop_inv h2 dsk qkey _
    refine seq_inv _ _ h3 (fun dag1 => ?_)
    have h4 := mainLoop_inv dsk qkey (flattenK result) events _ dag1 h3
    refine seq_inv _ _ h4 (fun u => ?_)
    exact gather_inv h4 pick gathQ replies result

/-- Witness for C1 at a concrete input. -/
theorem placement_index_consistent_witness :
    Inv stData ∧
    Inv (setitem_ack stData "w2" "x" none).s ∧
    Inv (schedule headPick "sq" "eq" "gq" [] [] dskY (KeySpec.leaf "y") stData).s :=
  ⟨inv_stData,
   (placement_index_consistent stData inv_stData).1 "w2" "x" none,
   (placement_index_consistent stData inv_stData).2.2.2.2 headPick "sq" "eq" "gq"
     [] [] dskY (KeySpec.leaf "y")⟩

/-- Witness for C5 at a concrete input. -/
theorem gather_missing_data_witness :
    "z" ∈ flattenK (KeySpec.leaf "z") ∧ st1.who_has "z" = ∅ ∧
    (gather headPick "gq" [] st1 (KeySpec.leaf "z")).out =
      Outcome.raised Err.missingData :=
  ⟨by simp [flattenK], rfl,
   gather_missing_data headPick headPick_valid "gq" [] st1 (KeySpec.leaf "z") "z"
     (by simp [flattenK]) rfl⟩

theorem wft_avail {s : SchedState} {f : FinishedFrame}
    (hact : f.key ∈ s.active_tasks) :
    (worker_finished_task s f).s.available_workers =
      s.available_workers ++ [f.address] := by
  simp only [worker_finished_task, if_pos hact, recordAll_avail, record_avail]
  split <;> rfl

theorem wft_inactive {s : SchedState} {f : FinishedFrame}
    (hact : f.key ∉ s.active_tasks) : (worker_finished_task s f).s = s := by
  simp only [worker_finished_task, if_neg hact]

/-- The pool-relevant events of the scheduler: a `register` frame, a
`trigger_task` call (which takes the longest-idle worker), and a
`finished-task` frame (whose handler puts the reporting worker back). -/
inductive Ev where
  | reg (w : Wkr)
  | trig (dsk : Graph) (key : Key) (q : String)
  | fin (f : FinishedFrame)

/-- One event under the source's semantics: `trig` is stuck (blocks) when no
worker is idle; a handler's raise is swallowed by the pool thread, so the
state mutated up to the raise is kept. -/
def execEv (s : SchedState) : Ev → Option SchedState
  | Ev.reg w => some (worker_registration s w).s
  | Ev.trig dsk k q =>
      match (trigger_task s dsk k q).out with
      | Outcome.blocked => none
      | _ => some (trigger_task s dsk k q).s
  | Ev.fin f => some (worker_finished_task s f).s

/-- A sequence of events under the source's semantics. -/
def codeExec : SchedState → List Ev → Option SchedState
  | s, [] => some s
  | s, e :: es =>
      match execEv s e with
      | some s' => codeExec s' es
      | none => none

/-- The code step extended with a ghost assignment list recording which
worker each dispatched key went to, and guarded by the environment
assumption that a `finished-task` frame for an active key is reported by the
worker the key was dispatched to (the ghost data does not influence the
scheduler state; see `hexec_agrees`). -/
def hstep (g : SchedState × List (Key × Wkr)) : Ev →
    Option (SchedState × List (Key × Wkr))
  | Ev.reg w => some ((worker_registration g.1 w).s, g.2)
  | Ev.trig dsk k q =>
      match g.1.available_workers with
      | [] => none
      | w :: _ => some ((trigger_task g.1 dsk k q).s, (k, w) :: g.2)
  | Ev.fin f =>
      if f.key ∈ g.1.active_tasks then
        if (f.key, f.address) ∈ g.2 then
          some ((worker_finished_task g.1 f).s, g.2.erase (f.key, f.address))
        else none
      else some ((worker_finished_task g.1 f).s, g.2)

/-- A sequence of ghost-annotated steps. -/
def hexec : SchedState × List (Key × Wkr) → List Ev →
    Option (SchedState × List (Key × Wkr))
  | g, [] => some g
  | g, e :: es =>
      match hstep g e with
      | some g' => hexec g' es
      | none => none

/-- Whether an event is a registration of the given worker. -/
def regCountEv (w : Wkr) : Ev → Bool
  | Ev.reg v => v == w
  | _ => false

/-- Number of registrations of a worker in an event sequence. -/
def regCount (evs : List Ev) (w : Wkr) : Nat :=
  evs.countP (regCountEv w)

/-- Number of ghost assignments currently held by a worker. -/
def asgCount (a : List (Key × Wkr)) (w : Wkr) : Nat :=
  a.countP (fun p => p.2 == w)

theorem countP_erase_mem {α : Type} [BEq α] [LawfulBEq α] (pred : α → Bool) (a : α) :
    ∀ l : List α, a ∈ l →
    l.countP pred = (l.erase a).countP pred + (if pred a then 1 else 0) := by
  intro l
  induction l with
  | nil => intro h; exact absurd h (List.not_mem_nil a)
  | cons b bs ih =>
      intro h
      by_cases hba : b = a
      · subst hba
        rw [List.erase_cons_head, List.countP_cons]
      · rw [List.erase_cons_tail (not_beq_of_ne hba)]
        have hmem : a ∈ bs := by
          rcases List.mem_cons.mp h with hc | hc
          · exact absurd hc.symm hba
          · exact hc
        rw [List.countP_cons, List.countP_cons, ih hmem]
        omega

theorem asgCount_erase (a : List (Key × Wkr)) (k : Key) (v w : Wkr)
    (hmem : (k, v) ∈ a) :
    asgCount a w = asgCount (a.erase (k, v)) w + (if v == w then 1 else 0) := by
  have h := countP_erase_mem (fun p => p.2 == w) (k, v) a hmem
  simpa [asgCount] using h

theorem trigger_avail {s : SchedState} {w0 : Wkr} {rest : List Wkr}
    (hw : s.available_workers = w0 :: rest) (dsk : Graph) (k : Key) (q : String) :
    (trigger_task s dsk k q).s.available_workers = rest := by
  simp [trigger_task, hw]

theorem hstep_count (g g' : SchedState × List (Key × Wkr)) (e : Ev) (w : Wkr)
    (h : hstep g e = some g') :
    g'.1.available_workers.count w + asgCount g'.2 w =
      g.1.available_workers.count w + asgCount g.2 w +
        (if regCountEv w e then 1 else 0) := by
  cases e with
  | reg v =>
      simp only [hstep, Option.some.injEq] at h
      rw [← h]
      by_cases hvw : v = w
      · subst hvw
        simp [worker_registration, regCountEv, List.count_append,
          List.count_singleton']
        omega
      · simp only [worker_registration, regCountEv, List.count_append,
          List.count_singleton', if_neg hvw, not_beq_of_ne hvw]
        simp
  | trig dsk k q =>
      simp only [hstep] at h
      split at h
      · exact absurd h (by simp)
      · next w0 rest hw =>
          simp only [Option.some.injEq] at h
          rw [← h]
          simp only [asgCount, List.countP_cons]
          rw [trigger_avail hw dsk k q, hw]
          by_cases hww : w0 = w
          · subst hww
            simp [List.count_cons, regCountEv]
            omega
          · simp only [List.count_cons, regCountEv, not_beq_of_ne hww, if_false]
            simp
  | fin f =>
      simp only [hstep] at h
      split at h
      · next hact =>
          split at h
          · next hmem =>
              simp only [Option.some.injEq] at h
              rw [← h]
              rw [wft_avail hact]
              rw [asgCount_erase g.2 f.key f.address w hmem]
              by_cases haw : f.address = w
              · subst haw
                simp [List.count_append, List.count_singleton', regCountEv]
                omega
              · simp [List.count_append, List.count_singleton', regCountEv,
                  haw, not_beq_of_ne haw]
          · exact absurd h (by simp)
      · next hact =>
          simp only [Option.some.injEq] at h
          rw [← h]
          rw [wft_inactive hact]
          simp [regCountEv]

theorem hexec_count : ∀ (evs : List Ev) (g g' : SchedState × List (Key × Wkr)),
    hexec g evs = some g' → ∀ w : Wkr,
    g'.1.available_workers.count w + asgCount g'.2 w =
      g.1.available_workers.count w + asgCount g.2 w + regCount evs w := by
  intro evs
  induction evs with
  | nil =>
      intro g g' h w
      simp only [hexec, Option.some.injEq] at h
      rw [← h]
      simp [regCount]
  | cons e es ih =>
      intro g g' h w
      simp only [hexec] at h
      split at h
      · next g1 hstep1 =>
          have h1 := hstep_count g g1 e w hstep1
          have h2 := ih g1 g' h w
          simp only [regCount, List.countP_cons]
          rw [h2, h1]
          simp only [regCount]
          omega
      · exact absurd h (by simp)

theorem hstep_agrees (g g' : SchedState × List (Key × Wkr)) (e : Ev)
    (h : hstep g e = some g') : execEv g.1 e = some g'.1 := by
  cases e with
  | reg v =>
      simp only [hstep, Option.some.injEq] at h
      rw [← h]
      rfl
  | trig dsk k q =>
      simp only [hstep] at h
      split at h
      · exact absurd h (by simp)
      · next w0 rest hw =>
          simp only [Option.some.injEq] at h
          rw [← h]
          simp [execEv, trigger_task, hw]
  | fin f =>
      simp only [hstep] at h
      split at h
      · split at h
        · simp only [Option.some.injEq] at h
          rw [← h]
          rfl
        · exact absurd h (by simp)
      · simp only [Option.some.injEq] at h
        rw [← h]
        rfl

theorem hexec_agrees : ∀ (evs : List Ev) (g g' : SchedState × List (Key × Wkr)),
    hexec g evs = some g' → codeExec g.1 evs = some g'.1 := by
  intro evs
  induction evs with
  | nil =>
      intro g g' h
      simp only [hexec, Option.some.injEq] at h
      rw [← h]
      rfl
  | cons e es ih =>
      intro g g' h
      simp only [hexec] at h
      split at h
      · next g1 hstep1 =>
          simp only [codeExec, hstep_agrees g g1 e hstep1]
          exact ih g1 g' h
      · exact absurd h (by simp)

/-- Counterexample to C7 as stated: two `register` frames from the same
worker are a sequence of handler invocations after which the worker appears
twice in the idle-worker pool — `worker_registration` puts the address
unconditionally. -/
theorem idle_pool_duplicate_counterexample :
    (codeExec initState [Ev.reg "w1", Ev.reg "w1"]).map
      (fun st => st.available_workers) = some ["w1", "w1"] ∧
    (codeExec initState [Ev.reg "w1", Ev.reg "w1"]).map
      (fun st => st.available_workers.count "w1") = some 2 :=
  ⟨rfl, rfl⟩

/-- C7 amended: after any sequence of `register` / `finished-task` handler
invocations and `trigger_task` calls in which each worker registers at most
once and every `finished-task` frame for an active key comes from the worker
to which that key was dispatched (the honest-worker assumption, formalized
by the ghost-annotated executor `hexec`, which `hexec_agrees` projects onto
the source semantics `codeExec`), each worker identity appears at most once
in the idle-worker pool. -/
theorem idle_pool_at_most_once (evs : List Ev)
    (g' : SchedState × List (Key × Wkr))
    (h : hexec (initState, []) evs = some g')
    (hreg : ∀ w : Wkr, regCount evs w ≤ 1) :
    codeExec initState evs = some g'.1 ∧
    ∀ w : Wkr, g'.1.available_workers.count w ≤ 1 := by
  refine ⟨hexec_agrees evs _ g' h, fun w => ?_⟩
  have hc := hexec_count evs (initState, []) g' h w
  have hr := hreg w
  simp only [initState, asgCount, List.countP_nil, List.count_nil] at hc
  omega

/-- The events of one honest run: register, dispatch `y`, report `y` done. -/
def evsW : List Ev :=
  [Ev.reg "w1", Ev.trig dskY "y" "eq1", Ev.fin frameY]

/-- The ghost-annotated result of that run. -/
def gW : SchedState × List (Key × Wkr) :=
  (hexec (initState, []) evsW).getD (initState, [])

/-- Witness for the amended C7 at a concrete input. -/
theorem idle_pool_at_most_once_witness :
    hexec (initState, []) evsW = some gW ∧
    gW.1.available_workers = ["w1"] ∧
    ∀ w : Wkr, gW.1.available_workers.count w ≤ 1 :=
  ⟨rfl, rfl,
   (idle_pool_at_most_once evsW gW rfl (by
     intro w
     by_cases hw : "w1" = w
     · simp [evsW, regCount, List.countP_cons, regCountEv, hw]
     · simp [evsW, regCount, List.countP_cons, regCountEv, hw])).2⟩

end DSched
